import Mathlib

/-!
Verification development for the Qute boolean query evaluation engine
(`src/qute/iterator.{h,cc}`, `src/qute/query_parser.{h,cc}`).

The development has three layers.

* A sequence-level embedding of the operator cursors (`AndIterator`,
  `OrIterator`, `DiffIterator`).  Each child cursor is abstracted by the
  strictly ascending sequence of its remaining document ids; the child
  interface calls of the C++ code translate as
  `value() ↦ cvalue`, `valid() ↦ cvalid`, `next() ↦ cnext`,
  `skipTo(t) ↦ cskipTo t` (a leaf `VectorIterator` is proved to refine this
  abstraction).  The operator algorithms (`nextAgreement`, the min-heap
  maintenance of `OrIterator`, the diff alignment loop) are translated
  statement by statement.

* A cursor-tree embedding (`Cursor`) of the iterator classes with
  `valid` / `value` / `getTags` / `hasTag`, used for the sentinel/tag
  claims.  `getTags` returns `Option` so that the hard `CHECK` abort of
  `DiffIterator::getTags` (and the out-of-bounds access reachable in
  `OrIterator::getTags`) is visible as `none`.

* A token-level embedding of `QueryParser::getIterator` (tokenizer
  `split`, the explicit stack of `PartialState`s, `PartialState::close`).
-/

namespace Qute

/-- `DocId` is `uint32_t`; ids are modelled as `Nat` (no arithmetic is ever
performed on them, only comparisons). -/
abbrev DocId := Nat

/-- `kInvalidDocId = std::numeric_limits<uint32_t>::max()`. -/
def kInvalidDocId : Nat := 2 ^ 32 - 1

/-! ### The child-cursor abstraction

A child cursor over a strictly ascending, sentinel-free sequence is
abstracted by the list of its remaining values.  The four interface
operations of `qute::Iterator` translate as follows. -/

/-- `Iterator::valid()`: the cursor is live iff values remain. -/
def cvalid (c : List Nat) : Bool := !c.isEmpty

/-- `Iterator::value()`: the current value, or the sentinel when invalid
(`iterator.cc` line 56: `valid() ? valueUnsafe() : kInvalidDocId`). -/
def cvalue (c : List Nat) : Nat :=
  match c with
  | [] => kInvalidDocId
  | x :: _ => x

/-- `Iterator::next()`: advance past the current value. -/
def cnext (c : List Nat) : List Nat := c.tail

/-- `Iterator::skipTo(target)`: reposition to the first value `≥ target`. -/
def cskipTo (t : Nat) (c : List Nat) : List Nat :=
  c.dropWhile (fun x => x < t)

/-- A well-formed posting sequence: strictly ascending and sentinel-free. -/
def WFSeq (c : List Nat) : Prop :=
  List.Chain' (· < ·) c ∧ ∀ x ∈ c, x < kInvalidDocId

instance : DecidablePred WFSeq := fun c => by
  unfold WFSeq; infer_instance

/-! ### Basic facts about the child abstraction -/

theorem cvalid_iff (c : List Nat) : cvalid c = true ↔ c ≠ [] := by
  cases c <;> simp [cvalid]

theorem cvalid_false_iff (c : List Nat) : cvalid c = false ↔ c = [] := by
  cases c <;> simp [cvalid]

theorem chain'_cskipTo (t : Nat) {c : List Nat}
    (h : List.Chain' (· < ·) c) : List.Chain' (· < ·) (cskipTo t c) :=
  List.Chain'.sublist h (by unfold cskipTo; exact List.dropWhile_sublist _)

theorem cvalue_nil : cvalue [] = kInvalidDocId := rfl

theorem cvalue_cons (x : Nat) (l : List Nat) : cvalue (x :: l) = x := rfl

theorem cvalue_mem {c : List Nat} (h : c ≠ []) : cvalue c ∈ c := by
  cases c with
  | nil => exact absurd rfl h
  | cons x l => exact List.mem_cons_self x l

theorem cvalue_lt_sentinel {c : List Nat} (hwf : WFSeq c) (hne : c ≠ []) :
    cvalue c < kInvalidDocId := by
  cases c with
  | nil => exact absurd rfl hne
  | cons x l => exact hwf.2 x (List.mem_cons_self x l)

theorem cvalue_eq_sentinel_iff {c : List Nat} (hwf : WFSeq c) :
    cvalue c = kInvalidDocId ↔ c = [] := by
  constructor
  · intro h
    by_contra hne
    exact absurd h (Nat.ne_of_lt (cvalue_lt_sentinel hwf hne))
  · intro h; subst h; rfl

theorem le_cvalue_of_mem {c : List Nat} (hc : List.Chain' (· < ·) c)
    {x : Nat} (hx : x ∈ c) : cvalue c ≤ x := by
  cases c with
  | nil => cases hx
  | cons y l =>
    have hp : List.Pairwise (· < ·) (y :: l) := List.chain'_iff_pairwise.mp hc
    rcases List.mem_cons.mp hx with rfl | hx
    · exact le_refl _
    · exact le_of_lt ((List.pairwise_cons.mp hp).1 x hx)

theorem WFSeq_tail {c : List Nat} (h : WFSeq c) : WFSeq c.tail := by
  constructor
  · exact h.1.tail
  · intro x hx
    exact h.2 x (List.mem_of_mem_tail hx)

theorem WFSeq_dropWhile (p : Nat → Bool) {c : List Nat} (h : WFSeq c) :
    WFSeq (c.dropWhile p) := by
  constructor
  · exact h.1.suffix (List.dropWhile_suffix p)
  · intro x hx
    exact h.2 x ((List.dropWhile_suffix p).subset hx)

theorem WFSeq_cskipTo (t : Nat) {c : List Nat} (h : WFSeq c) :
    WFSeq (cskipTo t c) := WFSeq_dropWhile _ h

theorem mem_cskipTo_iff {c : List Nat} (hc : List.Chain' (· < ·) c)
    (t x : Nat) : x ∈ cskipTo t c ↔ x ∈ c ∧ t ≤ x := by
  unfold cskipTo
  induction c with
  | nil => simp
  | cons y l ih =>
    by_cases hy : y < t
    · rw [List.dropWhile_cons_of_pos (by simpa using hy)]
      rw [ih hc.tail]
      constructor
      · rintro ⟨hx, ht⟩; exact ⟨List.mem_cons_of_mem _ hx, ht⟩
      · rintro ⟨hx, ht⟩
        rcases List.mem_cons.mp hx with rfl | hx
        · omega
        · exact ⟨hx, ht⟩
    · rw [List.dropWhile_cons_of_neg (by simpa using hy)]
      constructor
      · intro hx
        refine ⟨hx, ?_⟩
        have := le_cvalue_of_mem hc hx
        simp [cvalue] at this
        omega
      · exact fun h => h.1

theorem cskipTo_head_ge {c : List Nat} (t : Nat) (hne : cskipTo t c ≠ []) :
    t ≤ cvalue (cskipTo t c) := by
  have hh := List.head?_dropWhile_not (fun x => x < t) c
  unfold cskipTo at *
  cases hdw : c.dropWhile (fun x => x < t) with
  | nil => exact absurd hdw hne
  | cons y l =>
    rw [hdw] at hh
    simp at hh
    simpa [cvalue] using hh

theorem cskipTo_eq_self {c : List Nat} {t : Nat} (h : t ≤ cvalue c)
    (hne : c ≠ []) : cskipTo t c = c := by
  cases c with
  | nil => exact absurd rfl hne
  | cons y l =>
    unfold cskipTo
    rw [List.dropWhile_cons_of_neg]
    simp [cvalue] at h
    simpa using Nat.not_lt.mpr h

theorem length_cskipTo_le (t : Nat) (c : List Nat) :
    (cskipTo t c).length ≤ c.length :=
  List.Sublist.length_le (List.dropWhile_sublist _)

theorem length_cskipTo_lt {c : List Nat} {t : Nat}
    (h : cvalue c < t) (hne : c ≠ []) : (cskipTo t c).length < c.length := by
  cases c with
  | nil => exact absurd rfl hne
  | cons y l =>
    unfold cskipTo
    rw [List.dropWhile_cons_of_pos]
    · exact Nat.lt_succ_of_le (List.Sublist.length_le (List.dropWhile_sublist _))
    · simp [cvalue] at h
      simpa using h

/-! ### Positional access helpers -/

theorem getD_set_self {α : Type} {l : List α} {i : Nat} (h : i < l.length)
    (a d : α) : (l.set i a).getD i d = a := by
  induction l generalizing i with
  | nil => simp at h
  | cons x xs ih =>
    cases i with
    | zero => rfl
    | succ j => simpa using ih (by simpa using h)

theorem getD_set_ne {α : Type} (l : List α) :
    ∀ {i j : Nat}, i ≠ j → ∀ (a d : α),
      (l.set i a).getD j d = l.getD j d := by
  induction l with
  | nil => intros; simp
  | cons x xs ih =>
    intro i j hij a d
    cases i with
    | zero =>
      cases j with
      | zero => exact absurd rfl hij
      | succ k => simp
    | succ i' =>
      cases j with
      | zero => simp
      | succ k => simpa using ih (i := i') (j := k) (by omega) a d

theorem getD_mem {α : Type} {l : List α} {i : Nat} (h : i < l.length)
    (d : α) : l.getD i d ∈ l := by
  induction l generalizing i with
  | nil => simp at h
  | cons x xs ih =>
    cases i with
    | zero => simp [List.getD]
    | succ j =>
      simp only [List.getD]
      exact List.mem_cons_of_mem _ (by simpa [List.getD] using ih (by simpa using h))

theorem mem_iff_getD {α : Type} (l : List α) (a d : α) :
    a ∈ l ↔ ∃ i, i < l.length ∧ l.getD i d = a := by
  constructor
  · intro h
    induction l with
    | nil => cases h
    | cons x xs ih =>
      rcases List.mem_cons.mp h with rfl | h'
      · exact ⟨0, by simp, rfl⟩
      · rcases ih h' with ⟨i, hi, he⟩
        exact ⟨i + 1, by simpa using hi, by simpa [List.getD] using he⟩
  · rintro ⟨i, hi, rfl⟩
    exact getD_mem hi d

/-! ### Swapping two children (`std::swap(children_[i], children_[j])`) -/

/-- Swap the elements at positions `i` and `j`. -/
def swapIdx (cs : List (List Nat)) (i j : Nat) : List (List Nat) :=
  (cs.set i (cs.getD j [])).set j (cs.getD i [])

theorem length_swapIdx (cs : List (List Nat)) (i j : Nat) :
    (swapIdx cs i j).length = cs.length := by
  simp [swapIdx]

theorem getD_swapIdx_fst {cs : List (List Nat)} {i j : Nat}
    (hi : i < cs.length) (hj : j < cs.length) :
    (swapIdx cs i j).getD i [] = cs.getD j [] := by
  unfold swapIdx
  by_cases h : i = j
  · subst h; exact getD_set_self (by simpa using hi) _ _
  · rw [getD_set_ne _ (Ne.symm h), getD_set_self hi]

theorem getD_swapIdx_snd {cs : List (List Nat)} {i j : Nat}
    (_hi : i < cs.length) (hj : j < cs.length) :
    (swapIdx cs i j).getD j [] = cs.getD i [] := by
  unfold swapIdx
  exact getD_set_self (by simpa using hj) _ _

theorem getD_swapIdx_other {cs : List (List Nat)} {i j p : Nat}
    (hpi : p ≠ i) (hpj : p ≠ j) :
    (swapIdx cs i j).getD p [] = cs.getD p [] := by
  unfold swapIdx
  rw [getD_set_ne _ (Ne.symm hpj), getD_set_ne _ (Ne.symm hpi)]

theorem mem_swapIdx_iff {cs : List (List Nat)} {i j : Nat}
    (hi : i < cs.length) (hj : j < cs.length) (c : List Nat) :
    c ∈ swapIdx cs i j ↔ c ∈ cs := by
  constructor
  · intro h
    rcases (mem_iff_getD _ c []).mp h with ⟨p, hp, he⟩
    rw [length_swapIdx] at hp
    by_cases hpi : p = i
    · subst hpi; rw [getD_swapIdx_fst hp hj] at he; exact he ▸ getD_mem hj []
    · by_cases hpj : p = j
      · subst hpj; rw [getD_swapIdx_snd hi hp] at he; exact he ▸ getD_mem hi []
      · rw [getD_swapIdx_other hpi hpj] at he; exact he ▸ getD_mem hp []
  · intro h
    rcases (mem_iff_getD _ c []).mp h with ⟨p, hp, he⟩
    by_cases hpi : p = i
    · subst hpi
      refine (mem_iff_getD _ c []).mpr ⟨j, by simpa [length_swapIdx] using hj, ?_⟩
      rw [getD_swapIdx_snd hp hj]; exact he
    · by_cases hpj : p = j
      · subst hpj
        refine (mem_iff_getD _ c []).mpr ⟨i, by simpa [length_swapIdx] using hi, ?_⟩
        rw [getD_swapIdx_fst hi hp]; exact he
      · refine (mem_iff_getD _ c []).mpr ⟨p, by simpa [length_swapIdx] using hp, ?_⟩
        rw [getD_swapIdx_other hpi hpj]; exact he

/-! ### Total remaining size, the termination measure for the operator loops -/

/-- Total number of remaining values over a family of child cursors. -/
def totalLen (cs : List (List Nat)) : Nat := (cs.map List.length).sum

theorem totalLen_set_add (cs : List (List Nat)) :
    ∀ {i : Nat}, i < cs.length → ∀ (c : List Nat),
      totalLen (cs.set i c) + (cs.getD i []).length = totalLen cs + c.length := by
  induction cs with
  | nil => intro i hi; simp at hi
  | cons x xs ih =>
    intro i hi c
    cases i with
    | zero => simp [totalLen]; omega
    | succ i' =>
      have := ih (i := i') (by simpa using hi) c
      simp [totalLen] at this ⊢
      omega

theorem totalLen_set_le {cs : List (List Nat)} {i : Nat} (hi : i < cs.length)
    {c : List Nat} (hc : c.length ≤ (cs.getD i []).length) :
    totalLen (cs.set i c) ≤ totalLen cs := by
  have := totalLen_set_add cs hi c
  omega

theorem totalLen_set_lt {cs : List (List Nat)} {i : Nat} (hi : i < cs.length)
    {c : List Nat} (hc : c.length < (cs.getD i []).length) :
    totalLen (cs.set i c) < totalLen cs := by
  have := totalLen_set_add cs hi c
  omega

theorem totalLen_swapIdx {cs : List (List Nat)} {i j : Nat}
    (hi : i < cs.length) (hj : j < cs.length) :
    totalLen (swapIdx cs i j) = totalLen cs := by
  unfold swapIdx
  by_cases h : i = j
  · subst h
    have h1 := totalLen_set_add cs hi (cs.getD i [])
    have h2 := totalLen_set_add (cs.set i (cs.getD i [])) (i := i)
      (by simpa using hi) (cs.getD i [])
    rw [getD_set_self hi] at h2
    omega
  · have h1 := totalLen_set_add cs hi (cs.getD j [])
    have h2 := totalLen_set_add (cs.set i (cs.getD j [])) (i := j)
      (by simpa using hj) (cs.getD i [])
    rw [getD_set_ne _ h] at h2
    omega

/-! ### `VectorIterator` (`iterator.cc` lines 82–107)

The leaf cursor holds an immutable vector of ids and the index `nextPos_`. -/

structure VectorIterator where
  sortedDocIds : List Nat
  nextPos : Nat
deriving Repr, DecidableEq

namespace VectorIterator

/-- Both constructors just store the vector; there is no validation. -/
def mk0 (sortedDocIds : List Nat) : VectorIterator := ⟨sortedDocIds, 0⟩

/-- `valid()`: `nextPos_ < sortedDocIds_.size()`. -/
def valid (v : VectorIterator) : Bool := v.nextPos < v.sortedDocIds.length

/-- `valueUnsafe()`: `sortedDocIds_[nextPos_]` (out-of-bounds when invalid;
the public `value()` below never evaluates it then). -/
def valueUnsafe (v : VectorIterator) : Nat := v.sortedDocIds.getD v.nextPos 0

/-- Public `value()` from the `Iterator` base class. -/
def value (v : VectorIterator) : Nat :=
  if v.valid then v.valueUnsafe else kInvalidDocId

/-- `next()`: `++nextPos_; return valid();`. -/
def next (v : VectorIterator) : VectorIterator × Bool :=
  let v' : VectorIterator := ⟨v.sortedDocIds, v.nextPos + 1⟩
  (v', v'.valid)

/-- Models `std::lower_bound(begin + nextPos_, end, target) - begin` on a
range partitioned by `(· < target)`: the index of the first element of the
remaining suffix that is `≥ target`. -/
def lowerBoundFrom (xs : List Nat) (pos t : Nat) : Nat :=
  pos + ((xs.drop pos).takeWhile (fun x => x < t)).length

/-- `skipTo(target)` (`iterator.cc` lines 92–99). -/
def skipTo (t : Nat) (v : VectorIterator) : VectorIterator × Bool :=
  let v' : VectorIterator := ⟨v.sortedDocIds, lowerBoundFrom v.sortedDocIds v.nextPos t⟩
  (v', v'.valid)

/-- `remainingDocs()`: `size() - nextPos_`. -/
def remainingDocs (v : VectorIterator) : Nat :=
  v.sortedDocIds.length - v.nextPos

/-- The remaining sequence of the cursor: the suffix from `nextPos_`. -/
def remaining (v : VectorIterator) : List Nat := v.sortedDocIds.drop v.nextPos

/-- The sequence of values observed by driving the cursor with `next()`. -/
def toList (v : VectorIterator) : List Nat :=
  if v.valid then v.value :: toList (v.next).1 else []
termination_by v.sortedDocIds.length - v.nextPos
decreasing_by
  simp [valid] at *
  simp [next]
  omega

theorem next_fst (v : VectorIterator) :
    (v.next).1 = ⟨v.sortedDocIds, v.nextPos + 1⟩ := rfl

theorem toList_eq_remaining (v : VectorIterator) : v.toList = v.remaining := by
  rw [toList]
  by_cases h : v.valid
  · have hlt : v.nextPos < v.sortedDocIds.length := by simpa [valid] using h
    rw [if_pos h, next_fst,
      toList_eq_remaining ⟨v.sortedDocIds, v.nextPos + 1⟩]
    unfold remaining
    rw [List.drop_eq_getElem_cons hlt]
    congr 1
    simp only [value, h, if_pos, valueUnsafe]
    rw [List.getD_eq_getElem?_getD, List.getElem?_eq_getElem hlt]
    rfl
  · rw [if_neg h]
    have hge : v.sortedDocIds.length ≤ v.nextPos := by
      simp [valid] at h
      omega
    simp [remaining, List.drop_eq_nil_of_le hge]
termination_by v.sortedDocIds.length - v.nextPos
decreasing_by
  simp [valid] at h
  simp
  omega

/-- Refinement of `skipTo` to the abstract child operation: on the remaining
sequence, `skipTo t` is exactly `dropWhile (· < t)`. -/
theorem remaining_skipTo (t : Nat) (v : VectorIterator) :
    ((v.skipTo t).1).remaining = cskipTo t v.remaining := by
  simp only [skipTo, remaining, lowerBoundFrom, cskipTo]
  rw [← List.drop_drop]
  generalize v.sortedDocIds.drop v.nextPos = s
  induction s with
  | nil => simp
  | cons y l ih =>
    by_cases hy : y < t
    · rw [List.takeWhile_cons_of_pos (by simpa using hy),
        List.dropWhile_cons_of_pos (by simpa using hy)]
      simpa using ih
    · rw [List.takeWhile_cons_of_neg (by simpa using hy),
        List.dropWhile_cons_of_neg (by simpa using hy)]
      simp

end VectorIterator

/-! ### `AndIterator` (`iterator.cc` lines 109–173)

The children family is `children_`, each child abstracted by its remaining
sequence.  `naGo cs pos` is the nested loop body of
`AndIterator::nextAgreement` starting from inner position `pos` (the
function is entered with `pos = 1`): while `pos < children_.size()` and
`children_[0]` is valid, take `candidate = children_[0]->value()`; for each
remaining `pos`, a child whose value is below the candidate is skipped
forward; if it overshoots, it is swapped into slot 0 and the scan restarts
at 1.  The return value is `pos == children_.size()`. -/

def naGo (cs : List (List Nat)) (pos : Nat) : List (List Nat) × Bool :=
  if h : pos < cs.length then
    if hv : cvalid (cs.getD 0 []) then
      -- `candidate = children_[0]->value()`; the scanned child is
      -- `children_[pos]`, and `cskipTo candidate` is its `skipTo(candidate)`.
      if hlt : cvalue (cs.getD pos []) < cvalue (cs.getD 0 []) then
        if hov : cvalue (cs.getD 0 [])
            < cvalue (cskipTo (cvalue (cs.getD 0 [])) (cs.getD pos [])) then
          -- overshoot: `std::swap(children_[pos], children_[0]); pos = 1;`
          naGo (swapIdx (cs.set pos (cskipTo (cvalue (cs.getD 0 [])) (cs.getD pos []))) 0 pos) 1
        else
          naGo (cs.set pos (cskipTo (cvalue (cs.getD 0 [])) (cs.getD pos []))) (pos + 1)
      else
        naGo cs (pos + 1)
    else
      (cs, false)
  else
    (cs, decide (pos = cs.length))
termination_by (totalLen cs, cs.length - pos)
decreasing_by
  · -- the swap-and-restart branch: the skipped child got strictly shorter
    apply Prod.Lex.left
    have hcne : cs.getD pos [] ≠ [] := by
      intro he
      rw [he] at hlt hov
      simp only [cskipTo, List.dropWhile_nil] at hov
      omega
    have hl : (cskipTo (cvalue (cs.getD 0 [])) (cs.getD pos [])).length
        < (cs.getD pos []).length := length_cskipTo_lt hlt hcne
    have h1 : totalLen (cs.set pos (cskipTo (cvalue (cs.getD 0 [])) (cs.getD pos [])))
        < totalLen cs := totalLen_set_lt h hl
    have h2 : totalLen (swapIdx (cs.set pos (cskipTo (cvalue (cs.getD 0 [])) (cs.getD pos []))) 0 pos)
        = totalLen (cs.set pos (cskipTo (cvalue (cs.getD 0 [])) (cs.getD pos []))) := by
      apply totalLen_swapIdx
      · simp
        omega
      · simpa using h
    omega
  · -- the skip-without-overshoot branch
    have hle : totalLen (cs.set pos (cskipTo (cvalue (cs.getD 0 [])) (cs.getD pos [])))
        ≤ totalLen cs := totalLen_set_le h (length_cskipTo_le _ _)
    rcases Nat.lt_or_ge (totalLen (cs.set pos (cskipTo (cvalue (cs.getD 0 [])) (cs.getD pos []))))
      (totalLen cs) with hlt' | hge
    · exact Prod.Lex.left _ _ hlt'
    · have heq : totalLen (cs.set pos (cskipTo (cvalue (cs.getD 0 [])) (cs.getD pos [])))
          = totalLen cs := by omega
      rw [heq]
      apply Prod.Lex.right
      simp
      omega
  · -- the already-agreeing branch
    apply Prod.Lex.right
    omega

structure AndIterator where
  children : List (List Nat)
deriving Repr, DecidableEq

namespace AndIterator

/-- `nextAgreement()` as called by the class: scan from position 1. -/
def nextAgreement (s : AndIterator) : AndIterator × Bool :=
  let r := naGo s.children 1
  (⟨r.1⟩, r.2)

/-- `valid()`: `children_[0]->valid()`. -/
def valid (s : AndIterator) : Bool := cvalid (s.children.getD 0 [])

/-- `valueUnsafe()`: `children_[0]->value()`. -/
def valueUnsafe (s : AndIterator) : Nat := cvalue (s.children.getD 0 [])

/-- Public `value()` from the `Iterator` base class. -/
def value (s : AndIterator) : Nat :=
  if s.valid then s.valueUnsafe else kInvalidDocId

/-- `next()` (`iterator.cc` lines 124–130): advance slot 0; if it is still
valid, realign. -/
def next (s : AndIterator) : AndIterator × Bool :=
  if s.valid then
    let cs := s.children.set 0 (cnext (s.children.getD 0 []))
    if cvalid (cs.getD 0 []) then
      let r := naGo cs 1
      (⟨r.1⟩, r.2)
    else
      (⟨cs⟩, false)
  else
    (s, false)

/-- `skipTo(target)` (`iterator.cc` lines 134–139): skip slot 0; if it is
still valid, realign. -/
def skipTo (t : Nat) (s : AndIterator) : AndIterator × Bool :=
  if s.valid then
    let cs := s.children.set 0 (cskipTo t (s.children.getD 0 []))
    if cvalid (cs.getD 0 []) then
      let r := naGo cs 1
      (⟨r.1⟩, r.2)
    else
      (⟨cs⟩, false)
  else
    (s, false)

/-- Index of the first child with maximal `value()`
(`std::max_element(children_.begin(), children_.end(), *lhs < *rhs)`). -/
def maxChildIdxGo (cs : List (List Nat)) (best i : Nat) : Nat :=
  if i < cs.length then
    maxChildIdxGo cs
      (if cvalue (cs.getD best []) < cvalue (cs.getD i []) then i else best)
      (i + 1)
  else best
termination_by cs.length - i

def maxChildIdx (cs : List (List Nat)) : Nat := maxChildIdxGo cs 0 1

end AndIterator

/-- The `AndIterator` constructor (`iterator.cc` lines 109–122): requires a
non-empty family, swaps the child with maximal value into slot 0 and runs
`nextAgreement`. -/
def mkAndIterator (children : List (List Nat)) : AndIterator :=
  ⟨(naGo (swapIdx children 0 (AndIterator.maxChildIdx children)) 1).1⟩

theorem naGo_totalLen_le (cs : List (List Nat)) (pos : Nat) :
    totalLen (naGo cs pos).1 ≤ totalLen cs ∧ (naGo cs pos).1.length = cs.length := by
  induction cs, pos using naGo.induct with
  | case1 cs pos h hv hlt hov ih =>
    rw [naGo, dif_pos h, dif_pos hv, dif_pos hlt, dif_pos hov]
    have hcne : cs.getD pos [] ≠ [] := by
      intro he
      rw [he] at hlt hov
      simp only [cskipTo, List.dropWhile_nil] at hov
      omega
    have hl : (cskipTo (cvalue (cs.getD 0 [])) (cs.getD pos [])).length
        < (cs.getD pos []).length := length_cskipTo_lt hlt hcne
    have h1 : totalLen (cs.set pos (cskipTo (cvalue (cs.getD 0 [])) (cs.getD pos [])))
        < totalLen cs := totalLen_set_lt h hl
    have h2 : totalLen (swapIdx (cs.set pos (cskipTo (cvalue (cs.getD 0 [])) (cs.getD pos []))) 0 pos)
        = totalLen (cs.set pos (cskipTo (cvalue (cs.getD 0 [])) (cs.getD pos []))) := by
      apply totalLen_swapIdx
      · simp; omega
      · simpa using h
    refine ⟨le_trans ih.1 (by omega), ?_⟩
    rw [ih.2, length_swapIdx]
    simp
  | case2 cs pos h hv hlt hov ih =>
    rw [naGo, dif_pos h, dif_pos hv, dif_pos hlt, dif_neg hov]
    have h1 : totalLen (cs.set pos (cskipTo (cvalue (cs.getD 0 [])) (cs.getD pos [])))
        ≤ totalLen cs := totalLen_set_le h (length_cskipTo_le _ _)
    refine ⟨le_trans ih.1 h1, ?_⟩
    rw [ih.2]
    simp
  | case3 cs pos h hv hlt ih =>
    rw [naGo, dif_pos h, dif_pos hv, dif_neg hlt]
    exact ih
  | case4 cs pos h hv =>
    rw [naGo, dif_pos h, dif_neg hv]
    exact ⟨le_refl _, rfl⟩
  | case5 cs pos h =>
    rw [naGo, dif_neg h]
    exact ⟨le_refl _, rfl⟩

/-! ### Correctness of `nextAgreement` -/

/-- All children are well-formed posting sequences. -/
def WFFam (cs : List (List Nat)) : Prop := ∀ c ∈ cs, WFSeq c

/-- `x` is present in every child (positional form). -/
def commonMem (cs : List (List Nat)) (x : Nat) : Prop :=
  ∀ p, p < cs.length → x ∈ cs.getD p []

/-- All children report the same `value()`. -/
def alignedVals (cs : List (List Nat)) : Prop :=
  ∀ p, p < cs.length → cvalue (cs.getD p []) = cvalue (cs.getD 0 [])

theorem commonMem_iff_mem (cs : List (List Nat)) (x : Nat) :
    commonMem cs x ↔ ∀ c ∈ cs, x ∈ c := by
  constructor
  · intro h c hc
    rcases (mem_iff_getD cs c []).mp hc with ⟨p, hp, rfl⟩
    exact h p hp
  · intro h p hp
    exact h _ (getD_mem hp [])

theorem WFFam_set {cs : List (List Nat)} (hw : WFFam cs) {c : List Nat}
    (hc : WFSeq c) (i : Nat) : WFFam (cs.set i c) := by
  intro e he
  rcases List.mem_or_eq_of_mem_set he with he' | rfl
  · exact hw e he'
  · exact hc

theorem WFFam_swapIdx {cs : List (List Nat)} {i j : Nat}
    (hi : i < cs.length) (hj : j < cs.length) (hw : WFFam cs) :
    WFFam (swapIdx cs i j) := by
  intro e he
  exact hw e ((mem_swapIdx_iff hi hj e).mp he)

theorem commonMem_swapIdx {cs : List (List Nat)} {i j : Nat}
    (hi : i < cs.length) (hj : j < cs.length) (x : Nat) :
    commonMem (swapIdx cs i j) x ↔ commonMem cs x := by
  rw [commonMem_iff_mem, commonMem_iff_mem]
  constructor
  · intro h c hc
    exact h c ((mem_swapIdx_iff hi hj c).mpr hc)
  · intro h c hc
    exact h c ((mem_swapIdx_iff hi hj c).mp hc)

/-- Skipping a child forward to the front's current value does not change
the set of common values: the values it drops are strictly below the
front's head, hence missing from the front. -/
theorem commonMem_set_cskipTo {cs : List (List Nat)} {pos : Nat}
    (hpos : pos < cs.length) (hp0 : pos ≠ 0) (hw : WFFam cs) (x : Nat) :
    commonMem (cs.set pos (cskipTo (cvalue (cs.getD 0 [])) (cs.getD pos []))) x
      ↔ commonMem cs x := by
  have h0 : (0 : Nat) < cs.length := by omega
  have hwp : WFSeq (cs.getD pos []) := hw _ (getD_mem hpos [])
  have hw0 : WFSeq (cs.getD 0 []) := hw _ (getD_mem h0 [])
  constructor
  · intro h q hq
    by_cases hqp : q = pos
    · subst hqp
      have := h q (by simpa using hq)
      rw [getD_set_self hq] at this
      exact (List.dropWhile_sublist _).subset this
    · have := h q (by simpa using hq)
      rwa [getD_set_ne _ (fun he => hqp he.symm)] at this
  · intro h q hq
    rw [List.length_set] at hq
    by_cases hqp : q = pos
    · subst hqp
      rw [getD_set_self hq]
      rw [mem_cskipTo_iff hwp.1]
      refine ⟨h q hq, ?_⟩
      exact le_cvalue_of_mem hw0.1 (h 0 h0)
    · rw [getD_set_ne _ (fun he => hqp he.symm)]
      exact h q hq

/-- The loop invariant of `nextAgreement`: positions `[1, pos)` already
agree with slot 0, positions `[pos, len)` are still at most slot 0's value
(the `DCHECK_LE` at `iterator.cc` line 160). -/
def InvNA (cs : List (List Nat)) (pos : Nat) : Prop :=
  1 ≤ pos ∧ pos ≤ cs.length ∧
  (∀ p, 1 ≤ p → p < pos → cvalue (cs.getD p []) = cvalue (cs.getD 0 [])) ∧
  (∀ p, pos ≤ p → p < cs.length → cvalue (cs.getD p []) ≤ cvalue (cs.getD 0 []))

/-- Correctness of the alignment loop: it preserves well-formedness and the
set of common values; on success all children agree on one value; on
failure slot 0 is exhausted. -/
theorem naGo_spec (cs : List (List Nat)) (pos : Nat)
    (hw : WFFam cs) (hinv : InvNA cs pos) :
    WFFam (naGo cs pos).1 ∧
    (∀ x, commonMem (naGo cs pos).1 x ↔ commonMem cs x) ∧
    ((naGo cs pos).2 = true → alignedVals (naGo cs pos).1) ∧
    ((naGo cs pos).2 = false → (naGo cs pos).1.getD 0 [] = []) := by
  induction cs, pos using naGo.induct with
  | case1 cs pos h hv hlt hov ih =>
    rw [naGo, dif_pos h, dif_pos hv, dif_pos hlt, dif_pos hov]
    obtain ⟨hpos1, hposle, hagree, hbelow⟩ := hinv
    have hp0 : pos ≠ 0 := by omega
    have hlen0 : (0 : Nat) < cs.length := by omega
    have hlenset : (cs.set pos (cskipTo (cvalue (cs.getD 0 [])) (cs.getD pos []))).length
        = cs.length := by simp
    have hw1 : WFFam (cs.set pos (cskipTo (cvalue (cs.getD 0 [])) (cs.getD pos []))) :=
      WFFam_set hw (WFSeq_cskipTo _ (hw _ (getD_mem h []))) pos
    have hw2 : WFFam (swapIdx (cs.set pos (cskipTo (cvalue (cs.getD 0 [])) (cs.getD pos []))) 0 pos) :=
      WFFam_swapIdx (by omega) (by omega) hw1
    -- the new slot 0 holds the overshooting child
    have hget0 : (swapIdx (cs.set pos (cskipTo (cvalue (cs.getD 0 [])) (cs.getD pos []))) 0 pos).getD 0 []
        = cskipTo (cvalue (cs.getD 0 [])) (cs.getD pos []) := by
      rw [getD_swapIdx_fst (by omega) (by omega), getD_set_self h]
    have hinv2 : InvNA (swapIdx (cs.set pos (cskipTo (cvalue (cs.getD 0 [])) (cs.getD pos []))) 0 pos) 1 := by
      refine ⟨le_refl _, by rw [length_swapIdx]; omega, by omega, ?_⟩
      intro p hp1 hpl
      rw [length_swapIdx, hlenset] at hpl
      rw [hget0]
      by_cases hpp : p = pos
      · subst hpp
        rw [getD_swapIdx_snd (by omega) (by omega), getD_set_ne _ hp0]
        exact le_of_lt hov
      · rw [getD_swapIdx_other (by omega) hpp, getD_set_ne _ (fun he => hpp he.symm)]
        rcases Nat.lt_or_ge p pos with hppos | hppos
        · rw [hagree p hp1 hppos]
          exact le_of_lt hov
        · exact le_trans (hbelow p hppos hpl) (le_of_lt hov)
    obtain ⟨ihw, ihcm, ihal, ihfa⟩ := ih hw2 hinv2
    refine ⟨ihw, ?_, ihal, ihfa⟩
    intro x
    rw [ihcm x, commonMem_swapIdx (by omega) (by omega),
      commonMem_set_cskipTo h hp0 hw]
  | case2 cs pos h hv hlt hov ih =>
    rw [naGo, dif_pos h, dif_pos hv, dif_pos hlt, dif_neg hov]
    obtain ⟨hpos1, hposle, hagree, hbelow⟩ := hinv
    have hp0 : pos ≠ 0 := by omega
    have hlen0 : (0 : Nat) < cs.length := by omega
    have hw0 : WFSeq (cs.getD 0 []) := hw _ (getD_mem hlen0 [])
    have hcand : cvalue (cs.getD 0 []) < kInvalidDocId :=
      cvalue_lt_sentinel hw0 (by simpa [cvalid_iff] using hv)
    -- after the skip the child sits exactly on the candidate
    have hskipne : cskipTo (cvalue (cs.getD 0 [])) (cs.getD pos []) ≠ [] := by
      intro he
      rw [he] at hov
      simp only [cvalue_nil] at hov
      omega
    have hskipeq : cvalue (cskipTo (cvalue (cs.getD 0 [])) (cs.getD pos []))
        = cvalue (cs.getD 0 []) := by
      have hge := cskipTo_head_ge (c := cs.getD pos []) (cvalue (cs.getD 0 [])) hskipne
      omega
    have hw1 : WFFam (cs.set pos (cskipTo (cvalue (cs.getD 0 [])) (cs.getD pos []))) :=
      WFFam_set hw (WFSeq_cskipTo _ (hw _ (getD_mem h []))) pos
    have hinv2 : InvNA (cs.set pos (cskipTo (cvalue (cs.getD 0 [])) (cs.getD pos []))) (pos + 1) := by
      have hget0 : (cs.set pos (cskipTo (cvalue (cs.getD 0 [])) (cs.getD pos []))).getD 0 []
          = cs.getD 0 [] := getD_set_ne _ hp0 _ _
      refine ⟨by omega, by simp; omega, ?_, ?_⟩
      · intro p hp1 hpl
        rw [hget0]
        by_cases hpp : p = pos
        · subst hpp
          rw [getD_set_self h]
          exact hskipeq
        · rw [getD_set_ne _ (fun he => hpp he.symm)]
          exact hagree p hp1 (by omega)
      · intro p hpge hpl
        rw [List.length_set] at hpl
        rw [hget0, getD_set_ne _ (fun he => by omega)]
        exact hbelow p (by omega) hpl
    obtain ⟨ihw, ihcm, ihal, ihfa⟩ := ih hw1 hinv2
    refine ⟨ihw, ?_, ihal, ihfa⟩
    intro x
    rw [ihcm x, commonMem_set_cskipTo h hp0 hw]
  | case3 cs pos h hv hlt ih =>
    rw [naGo, dif_pos h, dif_pos hv, dif_neg hlt]
    obtain ⟨hpos1, hposle, hagree, hbelow⟩ := hinv
    have hinv2 : InvNA cs (pos + 1) := by
      refine ⟨by omega, by omega, ?_, ?_⟩
      · intro p hp1 hpl
        rcases Nat.lt_or_ge p pos with hppos | hppos
        · exact hagree p hp1 hppos
        · have hpp : p = pos := by omega
          subst hpp
          have := hbelow p (le_refl _) h
          omega
      · intro p hpge hpl
        exact hbelow p (by omega) hpl
    exact ih hw hinv2
  | case4 cs pos h hv =>
    rw [naGo, dif_pos h, dif_neg hv]
    refine ⟨hw, fun x => Iff.rfl, by simp, ?_⟩
    intro
    simpa [cvalid_iff] using hv
  | case5 cs pos h =>
    rw [naGo, dif_neg h]
    obtain ⟨hpos1, hposle, hagree, hbelow⟩ := hinv
    have hpe : pos = cs.length := by omega
    refine ⟨hw, fun x => Iff.rfl, ?_, ?_⟩
    · intro _ p hp
      have hp' : p < cs.length := hp
      rcases Nat.eq_zero_or_pos p with rfl | hp1
      · rfl
      · exact hagree p hp1 (by omega)
    · intro hfalse
      exfalso
      simp [hpe] at hfalse

/-- Two strictly ascending lists with the same members are equal. -/
theorem sorted_eq_of_mem_iff {l₁ l₂ : List Nat}
    (h₁ : List.Chain' (· < ·) l₁) (h₂ : List.Chain' (· < ·) l₂)
    (hm : ∀ x, x ∈ l₁ ↔ x ∈ l₂) : l₁ = l₂ := by
  have hs₁ : List.Sorted (· < ·) l₁ := List.chain'_iff_pairwise.mp h₁
  have hs₂ : List.Sorted (· < ·) l₂ := List.chain'_iff_pairwise.mp h₂
  exact List.eq_of_perm_of_sorted
    ((List.perm_ext_iff_of_nodup hs₁.nodup hs₂.nodup).mpr hm) hs₁ hs₂

namespace AndIterator

theorem next_totalLen_lt (s : AndIterator) (h : s.valid = true) :
    totalLen ((s.next).1).children < totalLen s.children := by
  have hfr : s.children.getD 0 [] ≠ [] := by simpa [valid, cvalid_iff] using h
  have hlen : (0 : Nat) < s.children.length := by
    rcases hcs : s.children with _ | ⟨c, cs'⟩
    · rw [hcs] at hfr; simp [List.getD] at hfr
    · simp
  have htail : (cnext (s.children.getD 0 [])).length < (s.children.getD 0 []).length := by
    rcases hc : s.children.getD 0 [] with _ | ⟨y, t⟩
    · exact absurd hc hfr
    · simp [cnext]
  have hset : totalLen (s.children.set 0 (cnext (s.children.getD 0 [])))
      < totalLen s.children := totalLen_set_lt hlen htail
  rw [next, if_pos h]
  by_cases hv : cvalid ((s.children.set 0 (cnext (s.children.getD 0 []))).getD 0 [])
  · simp only [if_pos hv]
    exact lt_of_le_of_lt
      (naGo_totalLen_le (s.children.set 0 (cnext (s.children.getD 0 []))) 1).1 hset
  · simp only [if_neg hv]
    exact hset

/-- The sequence of values observed by driving the cursor with `next()`. -/
def toList (s : AndIterator) : List Nat :=
  if h : s.valid then s.value :: toList ((s.next).1) else []
termination_by totalLen s.children
decreasing_by
  exact next_totalLen_lt s h

end AndIterator

/-- A state of the `AndIterator` as left behind by the constructor, `next`
or `skipTo`: either all children agree on the current value, or slot 0 is
exhausted. -/
def AndPost (cs : List (List Nat)) : Prop :=
  alignedVals cs ∨ cvalid (cs.getD 0 []) = false

/-- In a well-formed aligned valid state, the common current value is a
member of every child. -/
theorem length_getD_le_totalLen {cs : List (List Nat)} :
    ∀ {p : Nat}, p < cs.length → (cs.getD p []).length ≤ totalLen cs := by
  induction cs with
  | nil => intro p hp; simp at hp
  | cons c rest ih =>
    intro p hp
    cases p with
    | zero => simp [totalLen]
    | succ q =>
      have := ih (p := q) (by simpa using hp)
      simp only [totalLen, List.map_cons, List.sum_cons, List.getD_cons_succ] at *
      omega

theorem commonMem_value_of_aligned {cs : List (List Nat)} (hw : WFFam cs)
    (hal : alignedVals cs) (hv : cvalid (cs.getD 0 []) = true) :
    commonMem cs (cvalue (cs.getD 0 [])) := by
  intro p hp
  have hpe := hal p hp
  have hw0 : WFSeq (cs.getD 0 []) :=
    hw _ (getD_mem (show 0 < cs.length by omega) [])
  have hlt : cvalue (cs.getD 0 []) < kInvalidDocId :=
    cvalue_lt_sentinel hw0 (by simpa [cvalid_iff] using hv)
  have hne : cs.getD p [] ≠ [] := by
    intro he
    rw [he, cvalue_nil] at hpe
    omega
  rcases hc : cs.getD p [] with _ | ⟨y, t⟩
  · exact absurd hc hne
  · rw [hc, cvalue_cons] at hpe
    rw [← hpe]
    exact List.mem_cons_self y t

/-- Main lemma for `AndIterator`: from any well-formed post-alignment
state, driving the cursor yields a strictly ascending enumeration of
exactly the values common to all children. -/
theorem andToList_spec (n : Nat) : ∀ cs : List (List Nat), totalLen cs ≤ n →
    WFFam cs → cs ≠ [] → AndPost cs →
    List.Chain' (· < ·) (AndIterator.toList ⟨cs⟩) ∧
    (∀ x, x ∈ AndIterator.toList ⟨cs⟩ ↔ commonMem cs x) := by
  induction n with
  | zero =>
    intro cs htl hw hne hpost
    have hlen : (0 : Nat) < cs.length := by
      cases cs
      · exact absurd rfl hne
      · simp
    have hfr : cs.getD 0 [] = [] := by
      rcases hc : cs.getD 0 [] with _ | ⟨y, t⟩
      · rfl
      · exfalso
        have := length_getD_le_totalLen hlen
        rw [hc] at this
        simp at this
        omega
    have hnv : AndIterator.valid ⟨cs⟩ = false := by
      show cvalid (cs.getD 0 []) = false
      rw [hfr]
      rfl
    rw [AndIterator.toList, dif_neg (by simp [hnv])]
    refine ⟨List.chain'_nil, fun x => ?_⟩
    simp only [List.not_mem_nil, false_iff]
    intro hcm
    have hlen : (0 : Nat) < cs.length := by
      cases cs
      · exact absurd rfl hne
      · simp
    have := hcm 0 hlen
    rw [hfr] at this
    simp at this
  | succ n ih =>
    intro cs htl hw hne hpost
    by_cases hv : AndIterator.valid ⟨cs⟩ = true
    · have hv' : cvalid (cs.getD 0 []) = true := hv
      have hal : alignedVals cs := by
        rcases hpost with hal | hbad
        · exact hal
        · rw [hv'] at hbad; cases hbad
      have hlen : (0 : Nat) < cs.length := by
        cases cs
        · exact absurd rfl hne
        · simp
      have hfr : cs.getD 0 [] ≠ [] := by simpa [cvalid_iff] using hv'
      obtain ⟨v, t, hft⟩ : ∃ v t, cs.getD 0 [] = v :: t := by
        rcases hc : cs.getD 0 [] with _ | ⟨y, t⟩
        · exact absurd hc hfr
        · exact ⟨y, t, rfl⟩
      have hw0 : WFSeq (cs.getD 0 []) := hw _ (getD_mem hlen [])
      have hvlt : v < kInvalidDocId := by
        have := cvalue_lt_sentinel hw0 hfr
        rwa [hft, cvalue_cons] at this
      have hvval : AndIterator.value ⟨cs⟩ = v := by
        rw [AndIterator.value, if_pos hv]
        show cvalue (cs.getD 0 []) = v
        rw [hft, cvalue_cons]
      have hvcm : commonMem cs v := by
        have := commonMem_value_of_aligned hw hal hv'
        rwa [hft, cvalue_cons] at this
      -- the state after `children_.front()->next()`
      have hcs1len : (cs.set 0 (cnext (cs.getD 0 []))).length = cs.length := by simp
      have hcs1get : (cs.set 0 (cnext (cs.getD 0 []))).getD 0 [] = t := by
        rw [getD_set_self hlen, hft]
        rfl
      have htllt : totalLen (cs.set 0 (cnext (cs.getD 0 []))) < totalLen cs := by
        apply totalLen_set_lt hlen
        rw [hft]
        simp [cnext]
      have hw1 : WFFam (cs.set 0 (cnext (cs.getD 0 []))) :=
        WFFam_set hw (WFSeq_tail hw0) 0
      -- membership in the advanced family
      have hcm1 : ∀ x, commonMem (cs.set 0 (cnext (cs.getD 0 []))) x ↔
          commonMem cs x ∧ x ≠ v := by
        intro x
        constructor
        · intro h1
          have hxt : x ∈ t := by
            have := h1 0 (by omega)
            rwa [hcs1get] at this
          have hvx : v < x := by
            have hp : List.Pairwise (· < ·) (v :: t) := by
              have := hw0.1
              rw [hft] at this
              exact List.chain'_iff_pairwise.mp this
            exact (List.pairwise_cons.mp hp).1 x hxt
          refine ⟨?_, by omega⟩
          intro p hp
          by_cases hp0 : p = 0
          · subst hp0
            rw [hft]
            exact List.mem_cons_of_mem _ hxt
          · have := h1 p (by omega)
            rwa [getD_set_ne _ (fun he => hp0 he.symm)] at this
        · rintro ⟨hcm, hxv⟩
          intro p hp
          rw [hcs1len] at hp
          by_cases hp0 : p = 0
          · subst hp0
            rw [hcs1get]
            have := hcm 0 hlen
            rw [hft] at this
            rcases List.mem_cons.mp this with rfl | hxt
            · exact absurd rfl hxv
            · exact hxt
          · rw [getD_set_ne _ (fun he => hp0 he.symm)]
            exact hcm p hp
      -- elements of children after the advance are all above `v`
      have hgt1 : ∀ x, commonMem (cs.set 0 (cnext (cs.getD 0 []))) x → v < x := by
        intro x h1
        have hxt : x ∈ t := by
          have := h1 0 (by omega)
          rwa [hcs1get] at this
        have hp : List.Pairwise (· < ·) (v :: t) := by
          have := hw0.1
          rw [hft] at this
          exact List.chain'_iff_pairwise.mp this
        exact (List.pairwise_cons.mp hp).1 x hxt
      by_cases hv1 : cvalid ((cs.set 0 (cnext (cs.getD 0 []))).getD 0 []) = true
      · -- slot 0 still live: realign
        have hinv1 : InvNA (cs.set 0 (cnext (cs.getD 0 []))) 1 := by
          refine ⟨le_refl _, by omega, by omega, ?_⟩
          intro p h1p hpl
          rw [hcs1len] at hpl
          rw [hcs1get]
          have htne : t ≠ [] := by
            rw [hcs1get] at hv1
            simpa [cvalid_iff] using hv1
          obtain ⟨y, t', hyt⟩ : ∃ y t', t = y :: t' := by
            rcases hc : t with _ | ⟨y, t'⟩
            · exact absurd hc htne
            · exact ⟨y, t', rfl⟩
          have hvy : v < y := by
            have := hw0.1
            rw [hft, hyt] at this
            exact (List.chain'_cons.mp this).1
          rw [getD_set_ne _ (by omega : (0 : Nat) ≠ p), hal p hpl, hft, cvalue_cons,
            hyt, cvalue_cons]
          omega
        obtain ⟨ihw, ihcm, ihal, ihfa⟩ :=
          naGo_spec (cs.set 0 (cnext (cs.getD 0 []))) 1 hw1 hinv1
        have hpost2 : AndPost (naGo (cs.set 0 (cnext (cs.getD 0 []))) 1).1 := by
          cases hok : (naGo (cs.set 0 (cnext (cs.getD 0 []))) 1).2 with
          | false =>
            right
            rw [ihfa hok]
            rfl
          | true =>
            left
            exact ihal hok
        have hne2 : (naGo (cs.set 0 (cnext (cs.getD 0 []))) 1).1 ≠ [] := by
          have := (naGo_totalLen_le (cs.set 0 (cnext (cs.getD 0 []))) 1).2
          intro he
          rw [he] at this
          simp at this
          omega
        have htl2 : totalLen (naGo (cs.set 0 (cnext (cs.getD 0 []))) 1).1 ≤ n := by
          have := (naGo_totalLen_le (cs.set 0 (cnext (cs.getD 0 []))) 1).1
          omega
        obtain ⟨ihchain, ihmem⟩ := ih _ htl2 ihw hne2 hpost2
        -- unfold one step of `toList`
        have hnext : (AndIterator.next ⟨cs⟩).1
            = ⟨(naGo (cs.set 0 (cnext (cs.getD 0 []))) 1).1⟩ := by
          rw [AndIterator.next, if_pos hv]
          simp only [if_pos hv1]
        rw [AndIterator.toList, dif_pos hv, hnext, hvval]
        constructor
        · rw [List.chain'_cons']
          refine ⟨?_, ihchain⟩
          intro y hy
          have hymem : y ∈ AndIterator.toList ⟨(naGo (cs.set 0 (cnext (cs.getD 0 []))) 1).1⟩ :=
            List.mem_of_mem_head? hy
          have := (ihmem y).mp hymem
          exact hgt1 y ((ihcm y).mp this)
        · intro x
          rw [List.mem_cons, ihmem x, ihcm x, hcm1 x]
          constructor
          · rintro (rfl | ⟨hcm, _⟩)
            · exact hvcm
            · exact hcm
          · intro hcm
            by_cases hxv : x = v
            · exact Or.inl hxv
            · exact Or.inr ⟨hcm, hxv⟩
      · -- slot 0 exhausted by the advance: the AND is exhausted
        have hnext : (AndIterator.next ⟨cs⟩).1
            = ⟨cs.set 0 (cnext (cs.getD 0 []))⟩ := by
          rw [AndIterator.next, if_pos hv]
          simp only [if_neg hv1]
        have hte : t = [] := by
          rw [hcs1get] at hv1
          simpa [cvalid_iff] using hv1
        have hnv2 : AndIterator.valid ⟨cs.set 0 (cnext (cs.getD 0 []))⟩ = false := by
          show cvalid ((cs.set 0 (cnext (cs.getD 0 []))).getD 0 []) = false
          rw [hcs1get, hte]
          rfl
        have hnv2' : ¬ (AndIterator.valid ⟨cs.set 0 (cnext (cs.getD 0 []))⟩ = true) := by
          rw [hnv2]
          simp
        rw [AndIterator.toList, dif_pos hv, hnext, hvval,
          AndIterator.toList, dif_neg hnv2']
        refine ⟨List.chain'_singleton v, fun x => ?_⟩
        constructor
        · intro hx
          rcases List.mem_cons.mp hx with rfl | hx'
          · exact hvcm
          · cases hx'
        · intro hcm
          have := hcm 0 hlen
          rw [hft, hte] at this
          rcases List.mem_cons.mp this with rfl | hx'
          · exact List.mem_cons_self _ _
          · cases hx'
    · -- exhausted state
      have hnv : AndIterator.valid ⟨cs⟩ = false := by
        cases hvv : AndIterator.valid ⟨cs⟩
        · rfl
        · exact absurd hvv hv
      have hfr : cs.getD 0 [] = [] := by
        have : cvalid (cs.getD 0 []) = false := hnv
        rcases hc : cs.getD 0 [] with _ | ⟨y, t⟩
        · rfl
        · rw [hc] at this; simp [cvalid] at this
      rw [AndIterator.toList, dif_neg (by simp [hnv])]
      refine ⟨List.chain'_nil, fun x => ?_⟩
      simp only [List.not_mem_nil, false_iff]
      intro hcm
      have hlen : (0 : Nat) < cs.length := by
        cases cs
        · exact absurd rfl hne
        · simp
      have := hcm 0 hlen
      rw [hfr] at this
      simp at this

theorem maxChildIdxGo_spec (cs : List (List Nat)) :
    ∀ k best i, cs.length - i ≤ k → best < cs.length →
      (∀ j, j < i → cvalue (cs.getD j []) ≤ cvalue (cs.getD best [])) →
      AndIterator.maxChildIdxGo cs best i < cs.length ∧
      ∀ j, j < cs.length →
        cvalue (cs.getD j []) ≤ cvalue (cs.getD (AndIterator.maxChildIdxGo cs best i) []) := by
  intro k
  induction k with
  | zero =>
    intro best i hk hbest hinv
    rw [AndIterator.maxChildIdxGo, if_neg (by omega)]
    exact ⟨hbest, fun j hj => hinv j (by omega)⟩
  | succ k ih =>
    intro best i hk hbest hinv
    by_cases h : i < cs.length
    · rw [AndIterator.maxChildIdxGo, if_pos h]
      apply ih _ (i + 1) (by omega)
      · by_cases hc : cvalue (cs.getD best []) < cvalue (cs.getD i [])
        · rw [if_pos hc]; exact h
        · rw [if_neg hc]; exact hbest
      · intro j hj
        by_cases hc : cvalue (cs.getD best []) < cvalue (cs.getD i [])
        · rw [if_pos hc]
          rcases Nat.lt_or_ge j i with hji | hji
          · exact le_trans (hinv j hji) (le_of_lt hc)
          · have hje : j = i := by omega
            subst hje
            exact le_refl _
        · rw [if_neg hc]
          rcases Nat.lt_or_ge j i with hji | hji
          · exact hinv j hji
          · have hje : j = i := by omega
            subst hje
            omega
    · rw [AndIterator.maxChildIdxGo, if_neg h]
      exact ⟨hbest, fun j hj => hinv j (by omega)⟩

theorem maxChildIdx_spec {cs : List (List Nat)} (hne : cs ≠ []) :
    AndIterator.maxChildIdx cs < cs.length ∧
    ∀ j, j < cs.length →
      cvalue (cs.getD j []) ≤ cvalue (cs.getD (AndIterator.maxChildIdx cs) []) := by
  have hlen : (0 : Nat) < cs.length := by
    cases cs
    · exact absurd rfl hne
    · simp
  apply maxChildIdxGo_spec cs (cs.length) 0 1 (by omega) hlen
  intro j hj
  have hje : j = 0 := by omega
  subst hje
  exact le_refl _

/-- The intersection of a family of sequences, read off the first child
(this is the specification side of claim C1). -/
def interList : List (List Nat) → List Nat
  | [] => []
  | c :: rest => c.filter (fun x => decide (∀ m ∈ rest, x ∈ m))

theorem mem_interList {cs : List (List Nat)} (hne : cs ≠ []) (x : Nat) :
    x ∈ interList cs ↔ ∀ c ∈ cs, x ∈ c := by
  rcases cs with _ | ⟨c, rest⟩
  · exact absurd rfl hne
  · simp only [interList, List.mem_filter, decide_eq_true_eq]
    constructor
    · rintro ⟨hc, hall⟩ e he
      rcases List.mem_cons.mp he with rfl | he'
      · exact hc
      · exact hall e he'
    · intro h
      exact ⟨h c (List.mem_cons_self _ _), fun m hm => h m (List.mem_cons_of_mem _ hm)⟩

theorem chain'_interList {cs : List (List Nat)} (hw : WFFam cs) :
    List.Chain' (· < ·) (interList cs) := by
  rcases cs with _ | ⟨c, rest⟩
  · exact List.chain'_nil
  · exact List.Chain'.sublist (hw c (List.mem_cons_self _ _)).1 (List.filter_sublist _)

/-- The constructor's state is a well-formed post-alignment state whose
common values are those of the input family. -/
theorem mkAndIterator_state {cs : List (List Nat)} (hne : cs ≠ [])
    (hw : WFFam cs) :
    WFFam (mkAndIterator cs).children ∧ (mkAndIterator cs).children ≠ [] ∧
    AndPost (mkAndIterator cs).children ∧
    (∀ x, commonMem (mkAndIterator cs).children x ↔ commonMem cs x) := by
  simp only [mkAndIterator]
  obtain ⟨hmlt, hmax⟩ := maxChildIdx_spec hne
  have hlen : (0 : Nat) < cs.length := by omega
  have hw2 : WFFam (swapIdx cs 0 (AndIterator.maxChildIdx cs)) :=
    WFFam_swapIdx hlen hmlt hw
  have hinv : InvNA (swapIdx cs 0 (AndIterator.maxChildIdx cs)) 1 := by
    refine ⟨le_refl _, by rw [length_swapIdx]; omega, by omega, ?_⟩
    intro p hp1 hpl
    rw [length_swapIdx] at hpl
    rw [getD_swapIdx_fst hlen hmlt]
    by_cases hpm : p = AndIterator.maxChildIdx cs
    · subst hpm
      rw [getD_swapIdx_snd hlen hpl]
      exact hmax 0 hlen
    · rw [getD_swapIdx_other (by omega) hpm]
      exact hmax p hpl
  obtain ⟨ihw, ihcm, ihal, ihfa⟩ :=
    naGo_spec (swapIdx cs 0 (AndIterator.maxChildIdx cs)) 1 hw2 hinv
  have hlenres : (naGo (swapIdx cs 0 (AndIterator.maxChildIdx cs)) 1).1.length = cs.length := by
    rw [(naGo_totalLen_le _ _).2, length_swapIdx]
  refine ⟨ihw, ?_, ?_, ?_⟩
  · intro he
    rw [he] at hlenres
    simp at hlenres
    omega
  · cases hok : (naGo (swapIdx cs 0 (AndIterator.maxChildIdx cs)) 1).2 with
    | false =>
      right
      rw [ihfa hok]
      rfl
    | true =>
      left
      exact ihal hok
  · intro x
    rw [ihcm x, commonMem_swapIdx hlen hmlt]

/-- Claim C1: for every family of `k ≥ 1` well-formed child sequences, the
`AndIterator` emits exactly the intersection, strictly ascending, and a
value is emitted iff it is present in every child. -/
theorem andIterator_emits_intersection (cs : List (List Nat))
    (hne : cs ≠ []) (hw : ∀ c ∈ cs, List.Chain' (· < ·) c ∧ ∀ x ∈ c, x < kInvalidDocId) :
    AndIterator.toList (mkAndIterator cs) = interList cs ∧
    List.Chain' (· < ·) (AndIterator.toList (mkAndIterator cs)) ∧
    (∀ x, x ∈ AndIterator.toList (mkAndIterator cs) ↔ ∀ c ∈ cs, x ∈ c) := by
  have hw' : WFFam cs := hw
  obtain ⟨hw2, hne2, hpost2, hcm2⟩ := mkAndIterator_state hne hw'
  obtain ⟨hchain, hmem⟩ :=
    andToList_spec (totalLen (mkAndIterator cs).children) (mkAndIterator cs).children
      (le_refl _) hw2 hne2 hpost2
  have hmem' : ∀ x, x ∈ AndIterator.toList (mkAndIterator cs) ↔ ∀ c ∈ cs, x ∈ c := by
    intro x
    rw [hmem x, hcm2 x, commonMem_iff_mem]
  refine ⟨?_, hchain, hmem'⟩
  apply sorted_eq_of_mem_iff hchain (chain'_interList hw')
  intro x
  rw [hmem' x, mem_interList hne]

/-! ### `DiffIterator` (`iterator.cc` lines 285–328) -/

structure DiffIterator where
  lhs : List Nat
  rhs : List Nat
deriving Repr, DecidableEq

/-- `DiffIterator::nextAgreement` (`iterator.cc` lines 290–298): while the
left child is live, skip the right child to the left value; stop (true)
when the right child exhausted or overshot, else advance the left child. -/
def diffNA : List Nat → List Nat → (List Nat × List Nat) × Bool
  | [], r => (([], r), false)
  | x :: t, r =>
    if cvalid (cskipTo x r) = false ∨ x < cvalue (cskipTo x r) then
      ((x :: t, cskipTo x r), true)
    else
      diffNA t (cskipTo x r)

namespace DiffIterator

def valid (s : DiffIterator) : Bool := cvalid s.lhs

def valueUnsafe (s : DiffIterator) : Nat := cvalue s.lhs

def value (s : DiffIterator) : Nat :=
  if s.valid then s.valueUnsafe else kInvalidDocId

/-- `next()` (`iterator.cc` lines 300–305). -/
def next (s : DiffIterator) : DiffIterator × Bool :=
  if s.valid then
    if cvalid (cnext s.lhs) then
      (⟨(diffNA (cnext s.lhs) s.rhs).1.1, (diffNA (cnext s.lhs) s.rhs).1.2⟩,
        (diffNA (cnext s.lhs) s.rhs).2)
    else
      (⟨cnext s.lhs, s.rhs⟩, false)
  else
    (s, false)

/-- `skipTo(target)` (`iterator.cc` lines 309–314). -/
def skipTo (t : Nat) (s : DiffIterator) : DiffIterator × Bool :=
  if cvalid (cskipTo t s.lhs) then
    (⟨(diffNA (cskipTo t s.lhs) s.rhs).1.1, (diffNA (cskipTo t s.lhs) s.rhs).1.2⟩,
      (diffNA (cskipTo t s.lhs) s.rhs).2)
  else
    (⟨cskipTo t s.lhs, s.rhs⟩, false)

end DiffIterator

/-- The `DiffIterator` constructor (`iterator.cc` lines 285–288): runs
`nextAgreement` once. -/
def mkDiffIterator (l r : List Nat) : DiffIterator :=
  ⟨(diffNA l r).1.1, (diffNA l r).1.2⟩

theorem diffNA_lhs_le (l r : List Nat) :
    (diffNA l r).1.1.length ≤ l.length := by
  induction l generalizing r with
  | nil => simp [diffNA]
  | cons x t ih =>
    rw [diffNA]
    by_cases h : cvalid (cskipTo x r) = false ∨ x < cvalue (cskipTo x r)
    · rw [if_pos h]
    · rw [if_neg h]
      exact le_trans (ih (cskipTo x r)) (by simp)

namespace DiffIterator

/-- The sequence of values observed by driving the cursor with `next()`. -/
def toList (s : DiffIterator) : List Nat :=
  if h : s.valid then s.value :: toList ((s.next).1) else []
termination_by s.lhs.length
decreasing_by
  have hlne : s.lhs ≠ [] := by simpa [valid, cvalid_iff] using h
  obtain ⟨x, t, hxt⟩ : ∃ x t, s.lhs = x :: t := by
    rcases hc : s.lhs with _ | ⟨x, t⟩
    · exact absurd hc hlne
    · exact ⟨x, t, rfl⟩
  rw [next, if_pos h]
  by_cases hv : cvalid (cnext s.lhs) = true
  · simp only [if_pos hv]
    have := diffNA_lhs_le (cnext s.lhs) s.rhs
    rw [hxt] at *
    simp [cnext] at *
    omega
  · simp only [if_neg hv]
    rw [hxt]
    simp [cnext]

end DiffIterator

/-- A value survives the right child's `skipTo` iff it was present and not
below the skip target. -/
theorem not_mem_cskipTo_rhs {r : List Nat} (hr : List.Chain' (· < ·) r)
    {x y : Nat} (hxy : x ≤ y) : y ∈ cskipTo x r ↔ y ∈ r := by
  rw [mem_cskipTo_iff hr]
  exact ⟨fun h => h.1, fun h => ⟨h, hxy⟩⟩

/-- Main lemma for `DiffIterator`: from the state left by `nextAgreement`
on `(l, r)`, driving the cursor yields exactly the members of `l` missing
from `r`. -/
theorem diffToList_spec (n : Nat) : ∀ l r : List Nat, l.length ≤ n →
    List.Chain' (· < ·) l → List.Chain' (· < ·) r →
    DiffIterator.toList (mkDiffIterator l r)
      = l.filter (fun x => decide (x ∉ r)) := by
  induction n with
  | zero =>
    intro l r hn hl hr
    have hle : l = [] := by
      cases l
      · rfl
      · simp at hn
    subst hle
    rw [mkDiffIterator, diffNA]
    rw [DiffIterator.toList, dif_neg (by simp [DiffIterator.valid, cvalid])]
    simp
  | succ n ih =>
    intro l r hn hl hr
    rcases l with _ | ⟨x, t⟩
    · rw [mkDiffIterator, diffNA]
      rw [DiffIterator.toList, dif_neg (by simp [DiffIterator.valid, cvalid])]
      simp
    · rw [mkDiffIterator, diffNA]
      have hrs : List.Chain' (· < ·) (cskipTo x r) := chain'_cskipTo x hr
      have htfilter : t.filter (fun y => decide (y ∉ cskipTo x r))
          = t.filter (fun y => decide (y ∉ r)) := by
        apply List.filter_congr
        intro y hy
        have hxy : x < y := by
          have hp : List.Pairwise (· < ·) (x :: t) := List.chain'_iff_pairwise.mp hl
          exact (List.pairwise_cons.mp hp).1 y hy
        rw [decide_eq_decide]
        rw [not_mem_cskipTo_rhs hr (by omega)]
      by_cases h : cvalid (cskipTo x r) = false ∨ x < cvalue (cskipTo x r)
      · -- the right child exhausted or overshot: `x` is not in `r`
        rw [if_pos h]
        have hxnr : x ∉ r := by
          intro hxr
          have hxr' : x ∈ cskipTo x r :=
            (not_mem_cskipTo_rhs hr (le_refl x)).mpr hxr
          rcases h with hinv | hover
          · rw [cvalid_false_iff] at hinv
            rw [hinv] at hxr'
            cases hxr'
          · have := le_cvalue_of_mem hrs hxr'
            omega
        -- one step of `toList`
        have hvalid : DiffIterator.valid ⟨x :: t, cskipTo x r⟩ = true := by
          simp [DiffIterator.valid, cvalid]
        rw [DiffIterator.toList, dif_pos hvalid]
        have hval : DiffIterator.value ⟨x :: t, cskipTo x r⟩ = x := by
          rw [DiffIterator.value, if_pos hvalid]
          rfl
        have hnexteq : DiffIterator.toList ((DiffIterator.next ⟨x :: t, cskipTo x r⟩).1)
            = t.filter (fun y => decide (y ∉ cskipTo x r)) := by
          rw [DiffIterator.next, if_pos hvalid]
          by_cases hv : cvalid (cnext (⟨x :: t, cskipTo x r⟩ : DiffIterator).lhs) = true
          · simp only [if_pos hv]
            have := ih t (cskipTo x r) (by simp at hn; omega) hl.tail hrs
            rw [mkDiffIterator] at this
            exact this
          · simp only [if_neg hv]
            have hte : t = [] := by
              simpa [cnext, cvalid_iff] using hv
            subst hte
            rw [DiffIterator.toList, dif_neg (by simp [DiffIterator.valid, cnext, cvalid])]
            simp
        rw [hnexteq, hval, htfilter]
        rw [List.filter_cons_of_pos (by simpa using hxnr)]
      · -- the right child landed exactly on `x`: `x` is in `r`, skip it
        rw [if_neg h]
        push_neg at h
        obtain ⟨hvalidr, hle'⟩ := h
        have hne' : cskipTo x r ≠ [] := by
          intro he
          rw [he] at hvalidr
          simp [cvalid] at hvalidr
        have hxr : x ∈ r := by
          have hge := cskipTo_head_ge (c := r) x hne'
          have hxeq : cvalue (cskipTo x r) = x := by omega
          have : cvalue (cskipTo x r) ∈ cskipTo x r := by
            rcases hc : cskipTo x r with _ | ⟨y, t'⟩
            · exact absurd hc hne'
            · rw [cvalue_cons]; exact List.mem_cons_self _ _
          rw [hxeq] at this
          exact ((mem_cskipTo_iff hr x x).mp this).1
        have := ih t (cskipTo x r) (by simp at hn; omega) hl.tail hrs
        rw [mkDiffIterator] at this
        rw [this, htfilter]
        rw [List.filter_cons_of_neg (by simpa using hxr)]

/-- Claim C3: the DIFF cursor over `(l, r)` emits exactly the members of
`l` that are not members of `r`, in ascending order. -/
theorem diffIterator_emits_difference (l r : List Nat)
    (hl : List.Chain' (· < ·) l) (hr : List.Chain' (· < ·) r) :
    DiffIterator.toList (mkDiffIterator l r) = l.filter (fun x => decide (x ∉ r)) ∧
    List.Chain' (· < ·) (DiffIterator.toList (mkDiffIterator l r)) ∧
    (∀ x, x ∈ DiffIterator.toList (mkDiffIterator l r) ↔ x ∈ l ∧ x ∉ r) := by
  have heq := diffToList_spec l.length l r (le_refl _) hl hr
  refine ⟨heq, ?_, ?_⟩
  · rw [heq]
    exact List.Chain'.sublist hl (List.filter_sublist _)
  · intro x
    rw [heq]
    simp

/-! ### `OrIterator` (`iterator.cc` lines 192–283)

The children vector is maintained as a binary min-heap keyed by `value()`
(`minHeapCmp(lhs, rhs) = *rhs < *lhs`).  `adjustDown` is the repository's
`adjustDownMinHeap` (`iterator.cc` lines 18–39) instantiated with that
comparator. -/

/-- The index of the smaller-valued child of `pos`
(`minChild` after the possible `++minChild` at `iterator.cc` line 30). -/
def minChildIdx (heap : List (List Nat)) (pos : Nat) : Nat :=
  if 2 * pos + 2 < heap.length ∧
      cvalue (heap.getD (2 * pos + 2) []) < cvalue (heap.getD (2 * pos + 1) []) then
    2 * pos + 2
  else
    2 * pos + 1

/-- `adjustDownMinHeap(heap, pos, minHeapCmp)`. -/
def adjustDown (heap : List (List Nat)) (pos : Nat) : List (List Nat) :=
  if h : 2 * pos + 1 < heap.length then
    if cvalue (heap.getD (minChildIdx heap pos) []) < cvalue (heap.getD pos []) then
      adjustDown (swapIdx heap pos (minChildIdx heap pos)) (minChildIdx heap pos)
    else heap
  else heap
termination_by heap.length - pos
decreasing_by
  have hmc : pos < minChildIdx heap pos ∧ minChildIdx heap pos < heap.length := by
    unfold minChildIdx
    by_cases hc : 2 * pos + 2 < heap.length ∧
        cvalue (heap.getD (2 * pos + 2) []) < cvalue (heap.getD (2 * pos + 1) [])
    · rw [if_pos hc]; omega
    · rw [if_neg hc]; omega
  rw [length_swapIdx]
  omega

theorem minChildIdx_ge (heap : List (List Nat)) (pos : Nat) :
    2 * pos + 1 ≤ minChildIdx heap pos ∧ minChildIdx heap pos ≤ 2 * pos + 2 := by
  unfold minChildIdx
  by_cases hc : 2 * pos + 2 < heap.length ∧
      cvalue (heap.getD (2 * pos + 2) []) < cvalue (heap.getD (2 * pos + 1) [])
  · rw [if_pos hc]; omega
  · rw [if_neg hc]; omega

/-- `minChildIdx` picks the child with the smaller value (when both are in
range). -/
theorem minChildIdx_min (heap : List (List Nat)) (pos : Nat) {j : Nat}
    (hj : j = 2 * pos + 1 ∨ j = 2 * pos + 2) (hjl : j < heap.length) :
    cvalue (heap.getD (minChildIdx heap pos) []) ≤ cvalue (heap.getD j []) := by
  unfold minChildIdx
  by_cases hc : 2 * pos + 2 < heap.length ∧
      cvalue (heap.getD (2 * pos + 2) []) < cvalue (heap.getD (2 * pos + 1) [])
  · rw [if_pos hc]
    rcases hj with rfl | rfl
    · omega
    · exact le_refl _
  · rw [if_neg hc]
    rcases hj with rfl | rfl
    · exact le_refl _
    · push_neg at hc
      exact hc hjl

/-- Membership of index `i` in the binary-heap subtree rooted at `p`. -/
inductive InSubtree : Nat → Nat → Prop where
  | refl (p : Nat) : InSubtree p p
  | left {p i : Nat} : InSubtree p i → InSubtree p (2 * i + 1)
  | right {p i : Nat} : InSubtree p i → InSubtree p (2 * i + 2)

theorem inSubtree_le {p i : Nat} (h : InSubtree p i) : p ≤ i := by
  induction h with
  | refl => exact le_refl _
  | left _ ih => omega
  | right _ ih => omega

theorem inSubtree_bound {p i : Nat} (h : InSubtree p i) :
    i = p ∨ 2 * p + 1 ≤ i := by
  induction h with
  | refl => exact Or.inl rfl
  | left h ih => have := inSubtree_le h; omega
  | right h ih => have := inSubtree_le h; omega

theorem inSubtree_trans {p q r : Nat} (h₁ : InSubtree p q)
    (h₂ : InSubtree q r) : InSubtree p r := by
  induction h₂ with
  | refl => exact h₁
  | left _ ih => exact InSubtree.left ih
  | right _ ih => exact InSubtree.right ih

theorem inSubtree_parent {q j : Nat} (h : InSubtree q j) :
    j = q ∨ ∃ i, InSubtree q i ∧ (j = 2 * i + 1 ∨ j = 2 * i + 2) := by
  cases h with
  | refl => exact Or.inl rfl
  | left h => exact Or.inr ⟨_, h, Or.inl rfl⟩
  | right h => exact Or.inr ⟨_, h, Or.inr rfl⟩

theorem not_inSubtree_of_lt {p i : Nat} (h : i < p) : ¬ InSubtree p i :=
  fun hs => absurd (inSubtree_le hs) (by omega)

/-- A child of `p` that is not `mc` is not in `mc`'s subtree
(`mc` is one of `2p+1`, `2p+2`). -/
theorem sibling_not_inSubtree {p mc j : Nat}
    (hmc : mc = 2 * p + 1 ∨ mc = 2 * p + 2)
    (hj : j = 2 * p + 1 ∨ j = 2 * p + 2) (hne : j ≠ mc) :
    ¬ InSubtree mc j := by
  intro hs
  rcases inSubtree_bound hs with he | hb
  · exact hne he
  · omega

/-- The heap property restricted to pairs whose parent index is `≥ q`. -/
def HFrom (heap : List (List Nat)) (q : Nat) : Prop :=
  ∀ i j, (j = 2 * i + 1 ∨ j = 2 * i + 2) → j < heap.length → q ≤ i →
    cvalue (heap.getD i []) ≤ cvalue (heap.getD j [])

def IsMinHeap (heap : List (List Nat)) : Prop := HFrom heap 0

/-- Along the heap order, values do not decrease towards descendants. -/
theorem HFrom_subtree_le {heap : List (List Nat)} {q r i : Nat}
    (hH : HFrom heap q) (hs : InSubtree r i) (hqr : q ≤ r)
    (hil : i < heap.length) :
    cvalue (heap.getD r []) ≤ cvalue (heap.getD i []) := by
  induction hs with
  | refl => exact le_refl _
  | left h ih =>
    rename_i i'
    have hi' : i' < heap.length := by omega
    exact le_trans (ih hi')
      (hH i' _ (Or.inl rfl) hil (le_trans hqr (inSubtree_le h)))
  | right h ih =>
    rename_i i'
    have hi' : i' < heap.length := by omega
    exact le_trans (ih hi')
      (hH i' _ (Or.inr rfl) hil (le_trans hqr (inSubtree_le h)))

/-- Sift-down specification: starting from a structure that is a heap on
all pairs with parent `> p`, `adjustDown heap p` permutes the subtree at
`p` and establishes the heap property on all pairs with parent `≥ p`,
leaving everything outside the subtree untouched. -/
theorem adjustDown_spec : ∀ k heap p, heap.length - p ≤ k → HFrom heap (p + 1) →
    (adjustDown heap p).length = heap.length ∧
    totalLen (adjustDown heap p) = totalLen heap ∧
    (∀ i, ¬ InSubtree p i → (adjustDown heap p).getD i [] = heap.getD i []) ∧
    (∀ c, c ∈ adjustDown heap p ↔ c ∈ heap) ∧
    HFrom (adjustDown heap p) p ∧
    (∀ i, InSubtree p i → i < heap.length →
      ∃ j, InSubtree p j ∧ j < heap.length ∧
        (adjustDown heap p).getD i [] = heap.getD j []) := by
  intro k
  induction k with
  | zero =>
    intro heap p hk hH
    rw [adjustDown, dif_neg (by omega)]
    refine ⟨rfl, rfl, fun _ _ => rfl, fun _ => Iff.rfl, ?_,
      fun i hi hil => ⟨i, hi, hil, rfl⟩⟩
    intro i j hj hjl hpi
    rcases Nat.lt_or_ge i p with hip | hip
    · omega
    · rcases Nat.eq_or_lt_of_le hip with rfl | hip'
      · omega
      · exact hH i j hj hjl (by omega)
  | succ k ih =>
    intro heap p hk hH
    by_cases h : 2 * p + 1 < heap.length
    · have hmcr := minChildIdx_ge heap p
      have hmcor : minChildIdx heap p = 2 * p + 1 ∨ minChildIdx heap p = 2 * p + 2 := by
        omega
      by_cases hsw : cvalue (heap.getD (minChildIdx heap p) []) < cvalue (heap.getD p [])
      · -- swap `p` with its smaller child and recurse there
        rw [adjustDown, dif_pos h, if_pos hsw]
        set mc := minChildIdx heap p with hmcdef
        have hmclt : mc < heap.length := by
          rw [hmcdef]
          unfold minChildIdx
          by_cases hc : 2 * p + 2 < heap.length ∧
              cvalue (heap.getD (2 * p + 2) []) < cvalue (heap.getD (2 * p + 1) [])
          · rw [if_pos hc]; omega
          · rw [if_neg hc]; omega
        have hplt : p < heap.length := by omega
        have hpmc : p < mc := by omega
        -- facts about the swapped structure
        have hswlen : (swapIdx heap p mc).length = heap.length := length_swapIdx _ _ _
        have hswp : (swapIdx heap p mc).getD p [] = heap.getD mc [] :=
          getD_swapIdx_fst hplt hmclt
        have hswmc : (swapIdx heap p mc).getD mc [] = heap.getD p [] :=
          getD_swapIdx_snd hplt hmclt
        have hswo : ∀ i, i ≠ p → i ≠ mc →
            (swapIdx heap p mc).getD i [] = heap.getD i [] :=
          fun i hip himc => getD_swapIdx_other hip himc
        -- the swapped structure is a heap on pairs with parent ≥ mc+1
        have hH' : HFrom (swapIdx heap p mc) (mc + 1) := by
          intro i j hj hjl hmi
          rw [hswlen] at hjl
          have hinp : i ≠ p := by omega
          have hinmc : i ≠ mc := by omega
          have hjnp : j ≠ p := by omega
          have hjnmc : j ≠ mc := by omega
          rw [hswo i hinp hinmc, hswo j hjnp hjnmc]
          exact hH i j hj hjl (by omega)
        obtain ⟨ihlen, ihtl, ihout, ihmem, ihH, ihperm⟩ :=
          ih (swapIdx heap p mc) mc (by rw [hswlen]; omega) hH'
        rw [hswlen] at ihlen ihperm
        -- all values in the subtree of `mc` (after the swap) are ≥ the value
        -- that moved into `p`
        have hsubge : ∀ j, InSubtree mc j → j < heap.length →
            cvalue (heap.getD mc []) ≤ cvalue ((swapIdx heap p mc).getD j []) := by
          intro j hj hjl
          by_cases hjmc : j = mc
          · subst hjmc
            rw [hswmc]
            exact le_of_lt hsw
          · have hjp : j ≠ p := by
              have := inSubtree_le hj
              omega
            rw [hswo j hjp hjmc]
            exact HFrom_subtree_le (q := p + 1) hH hj (by omega) hjl
        refine ⟨ihlen, by rw [ihtl, totalLen_swapIdx hplt hmclt], ?_, ?_, ?_, ?_⟩
        · -- untouched outside the subtree of p
          intro i hi
          have hins : ¬ InSubtree mc i := by
            intro hc
            exact hi (inSubtree_trans (by
              rcases hmcor with he | he
              · rw [he]; exact InSubtree.left (InSubtree.refl p)
              · rw [he]; exact InSubtree.right (InSubtree.refl p)) hc)
          have hip : i ≠ p := fun he => hi (he ▸ InSubtree.refl p)
          have himc : i ≠ mc := fun he => hins (he ▸ InSubtree.refl mc)
          rw [ihout i hins, hswo i hip himc]
        · -- membership is preserved
          intro c
          rw [ihmem c, mem_swapIdx_iff hplt hmclt]
        · -- the heap property from p
          intro i j hj hjl hpi
          rw [ihlen] at hjl
          have hmcsub : InSubtree p mc := by
            rcases hmcor with he | he
            · rw [he]; exact InSubtree.left (InSubtree.refl p)
            · rw [he]; exact InSubtree.right (InSubtree.refl p)
          rcases Nat.eq_or_lt_of_le hpi with rfl | hpi'
          · -- pairs rooted at p itself
            have hresp : (adjustDown (swapIdx heap p mc) mc).getD p []
                = heap.getD mc [] := by
              rw [ihout p (not_inSubtree_of_lt hpmc), hswp]
            rw [hresp]
            by_cases hjmc : j = mc
            · subst hjmc
              obtain ⟨j₂, hj₂s, hj₂l, hj₂e⟩ := ihperm mc (InSubtree.refl mc) (by omega)
              rw [hj₂e]
              exact hsubge j₂ hj₂s (by omega)
            · -- the sibling of mc
              have hjs : ¬ InSubtree mc j := sibling_not_inSubtree hmcor hj hjmc
              have hjp : j ≠ p := by omega
              rw [ihout j hjs, hswo j hjp hjmc]
              exact minChildIdx_min heap p hj hjl
          · -- pairs rooted strictly below p
            rcases Nat.lt_or_ge i mc with himc | himc
            · -- parent strictly between p and mc: untouched
              have hins : ¬ InSubtree mc i := not_inSubtree_of_lt himc
              have hjns : ¬ InSubtree mc j := by
                intro hjs
                rcases inSubtree_parent hjs with rfl | ⟨i', hi's, hi'c⟩
                · omega
                · have : i' = i := by omega
                  subst this
                  exact hins hi's
              have hip : i ≠ p := by omega
              have himc' : i ≠ mc := by omega
              have hjp : j ≠ p := by omega
              have hjmc : j ≠ mc := by
                intro he
                subst he
                omega
              rw [ihout i hins, ihout j hjns, hswo i hip himc', hswo j hjp hjmc]
              exact hH i j hj hjl (by omega)
            · -- parent at or below mc: by the recursive heap property
              exact ihH i j hj (by omega) himc
        · -- subtree values are permuted within the subtree
          intro i hi hil
          have hmcsub : InSubtree p mc := by
            rcases hmcor with he | he
            · rw [he]; exact InSubtree.left (InSubtree.refl p)
            · rw [he]; exact InSubtree.right (InSubtree.refl p)
          by_cases hins : InSubtree mc i
          · obtain ⟨j₂, hj₂s, hj₂l, hj₂e⟩ := ihperm i hins hil
            by_cases hj₂mc : j₂ = mc
            · subst hj₂mc
              rw [hj₂e, hswmc]
              exact ⟨p, InSubtree.refl p, by omega, rfl⟩
            · have hj₂p : j₂ ≠ p := by
                have := inSubtree_le hj₂s
                omega
              rw [hj₂e, hswo j₂ hj₂p hj₂mc]
              exact ⟨j₂, inSubtree_trans hmcsub hj₂s, by omega, rfl⟩
          · have hip : i ≠ p ∨ i = p := by omega
            rcases hip with hip | hieq
            · have himc : i ≠ mc := fun he => hins (he ▸ InSubtree.refl mc)
              rw [ihout i hins, hswo i hip himc]
              exact ⟨i, hi, hil, rfl⟩
            · subst hieq
              rw [ihout i (not_inSubtree_of_lt hpmc), hswp]
              exact ⟨mc, hmcsub, by omega, rfl⟩
      · -- the parent already holds the smaller value: stop
        rw [adjustDown, dif_pos h, if_neg hsw]
        refine ⟨rfl, rfl, fun _ _ => rfl, fun _ => Iff.rfl, ?_,
          fun i hi hil => ⟨i, hi, hil, rfl⟩⟩
        intro i j hj hjl hpi
        rcases Nat.eq_or_lt_of_le hpi with heq | hpi'
        · subst heq
          exact le_trans (Nat.le_of_not_lt hsw) (minChildIdx_min heap p hj hjl)
        · exact hH i j hj hjl (by omega)
    · -- no children in range: nothing to do
      rw [adjustDown, dif_neg h]
      refine ⟨rfl, rfl, fun _ _ => rfl, fun _ => Iff.rfl, ?_,
        fun i hi hil => ⟨i, hi, hil, rfl⟩⟩
      intro i j hj hjl hpi
      rcases Nat.eq_or_lt_of_le hpi with rfl | hpi'
      · omega
      · exact hH i j hj hjl (by omega)

/-- In a min-heap, the root carries the smallest `value()`. -/
theorem root_min {heap : List (List Nat)} (hH : IsMinHeap heap) :
    ∀ i, i < heap.length → cvalue (heap.getD 0 []) ≤ cvalue (heap.getD i []) := by
  intro i
  induction i using Nat.strong_induction_on with
  | _ i ih =>
    intro hil
    rcases Nat.eq_zero_or_pos i with rfl | hpos
    · exact le_refl _
    · have hq : i = 2 * ((i - 1) / 2) + 1 ∨ i = 2 * ((i - 1) / 2) + 2 := by omega
      have hql : (i - 1) / 2 < i := by omega
      exact le_trans (ih _ hql (by omega)) (hH _ i hq hil (Nat.zero_le _))

/-- Models `std::make_heap(children_.begin(), children_.end(), minHeapCmp)`
by Floyd's heapify: sift down positions `i-1, ..., 0` with the
repository's `adjustDownMinHeap`. -/
def makeHeapGo (heap : List (List Nat)) : Nat → List (List Nat)
  | 0 => heap
  | i + 1 => makeHeapGo (adjustDown heap i) i

def makeHeap (heap : List (List Nat)) : List (List Nat) :=
  makeHeapGo heap heap.length

theorem makeHeapGo_spec : ∀ i heap, HFrom heap i →
    (makeHeapGo heap i).length = heap.length ∧
    totalLen (makeHeapGo heap i) = totalLen heap ∧
    (∀ c, c ∈ makeHeapGo heap i ↔ c ∈ heap) ∧
    IsMinHeap (makeHeapGo heap i) := by
  intro i
  induction i with
  | zero =>
    intro heap hH
    exact ⟨rfl, rfl, fun _ => Iff.rfl, hH⟩
  | succ i ih =>
    intro heap hH
    obtain ⟨adlen, adtl, adout, admem, adH, adperm⟩ :=
      adjustDown_spec (heap.length - i) heap i (le_refl _) hH
    have hHi : HFrom (adjustDown heap i) i := adH
    obtain ⟨ihlen, ihtl, ihmem, ihH⟩ := ih (adjustDown heap i) hHi
    rw [makeHeapGo]
    refine ⟨by rw [ihlen, adlen], by rw [ihtl, adtl], ?_, ihH⟩
    intro c
    rw [ihmem c, admem c]

theorem makeHeap_spec (heap : List (List Nat)) :
    (makeHeap heap).length = heap.length ∧
    totalLen (makeHeap heap) = totalLen heap ∧
    (∀ c, c ∈ makeHeap heap ↔ c ∈ heap) ∧
    IsMinHeap (makeHeap heap) := by
  apply makeHeapGo_spec
  intro i j hj hjl hli
  omega

theorem getD_dropLast {α : Type} (l : List α) :
    ∀ {p : Nat}, p < l.length - 1 → ∀ d, l.dropLast.getD p d = l.getD p d := by
  induction l with
  | nil => intro p hp; simp at hp
  | cons x xs ih =>
    intro p hp d
    cases xs with
    | nil => simp at hp
    | cons y ys =>
      cases p with
      | zero => simp
      | succ q =>
        have := ih (p := q) (by simp at hp ⊢; omega) d
        simpa using this

/-- Models `std::pop_heap(children_.begin(), children_.end(), minHeapCmp)`
followed by `children_.pop_back()`: move the root out (swapping it with
the last slot), shrink, and sift the new root down. -/
def popHeap (heap : List (List Nat)) : List (List Nat) :=
  if heap.length ≤ 1 then []
  else adjustDown ((swapIdx heap 0 (heap.length - 1)).dropLast) 0

theorem totalLen_dropLast_le (l : List (List Nat)) :
    totalLen l.dropLast ≤ totalLen l := by
  induction l with
  | nil => simp [totalLen]
  | cons x xs ih =>
    cases xs with
    | nil => simp [totalLen]
    | cons y ys =>
      rw [List.dropLast_cons₂]
      simp only [totalLen, List.map_cons, List.sum_cons] at *
      omega

/-- Every heap index lies in the subtree of the root. -/
theorem subtree_zero_all : ∀ p : Nat, InSubtree 0 p := by
  intro p
  induction p using Nat.strong_induction_on with
  | _ p ih =>
    rcases Nat.eq_zero_or_pos p with rfl | hpos
    · exact InSubtree.refl 0
    · have hq : p = 2 * ((p - 1) / 2) + 1 ∨ p = 2 * ((p - 1) / 2) + 2 := by omega
      have hql : (p - 1) / 2 < p := by omega
      rcases hq with he | he
      · rw [he]; exact InSubtree.left (ih _ hql)
      · rw [he]; exact InSubtree.right (ih _ hql)

/-- `x` occurs in some child of the family. -/
def memU (cs : List (List Nat)) (x : Nat) : Prop := ∃ c ∈ cs, x ∈ c

theorem memU_iff_pos (cs : List (List Nat)) (x : Nat) :
    memU cs x ↔ ∃ p, p < cs.length ∧ x ∈ cs.getD p [] := by
  constructor
  · rintro ⟨c, hc, hx⟩
    rcases (mem_iff_getD cs c []).mp hc with ⟨p, hp, rfl⟩
    exact ⟨p, hp, hx⟩
  · rintro ⟨p, hp, hx⟩
    exact ⟨_, getD_mem hp [], hx⟩

/-- `popHeap` on a structure whose root is exhausted: it removes the empty
root, keeps every value, and restores the heap property. -/
theorem popHeap_spec {heap : List (List Nat)} (hne : heap ≠ [])
    (hroot : heap.getD 0 [] = []) (hH : HFrom heap 1) :
    (popHeap heap).length = heap.length - 1 ∧
    totalLen (popHeap heap) ≤ totalLen heap ∧
    (∀ c, c ∈ popHeap heap → c ∈ heap) ∧
    IsMinHeap (popHeap heap) ∧
    (∀ x, memU (popHeap heap) x ↔ memU heap x) := by
  have hlen : (0 : Nat) < heap.length := by
    cases heap
    · exact absurd rfl hne
    · simp
  by_cases h1 : heap.length ≤ 1
  · rw [popHeap, if_pos h1]
    refine ⟨by simp; omega, by simp [totalLen], by simp, ?_, ?_⟩
    · intro i j hj hjl hli
      simp at hjl
    · intro x
      simp only [memU, List.not_mem_nil, false_and, exists_const, false_iff]
      rintro ⟨c, hc, hx⟩
      have he : heap.length = 1 := by omega
      rcases (mem_iff_getD heap c []).mp hc with ⟨p, hp, rfl⟩
      have hp0 : p = 0 := by omega
      subst hp0
      rw [hroot] at hx
      cases hx
  · rw [popHeap, if_neg h1]
    have hlast : heap.length - 1 < heap.length := by omega
    -- the structure before the final sift-down
    have hLlen : ((swapIdx heap 0 (heap.length - 1)).dropLast).length
        = heap.length - 1 := by
      rw [List.length_dropLast, length_swapIdx]
    have hLget : ∀ p, p < heap.length - 1 →
        ((swapIdx heap 0 (heap.length - 1)).dropLast).getD p []
          = if p = 0 then heap.getD (heap.length - 1) [] else heap.getD p [] := by
      intro p hp
      rw [getD_dropLast _ (by rw [length_swapIdx]; omega)]
      by_cases hp0 : p = 0
      · subst hp0
        rw [if_pos rfl]
        exact getD_swapIdx_fst hlen hlast
      · rw [if_neg hp0]
        exact getD_swapIdx_other hp0 (by omega)
    have hHL : HFrom ((swapIdx heap 0 (heap.length - 1)).dropLast) 1 := by
      intro i j hj hjl hli
      rw [hLlen] at hjl
      rw [hLget i (by omega), hLget j (by omega), if_neg (by omega), if_neg (by omega)]
      exact hH i j hj (by omega) hli
    obtain ⟨adlen, adtl, adout, admem, adH, adperm⟩ :=
      adjustDown_spec (((swapIdx heap 0 (heap.length - 1)).dropLast).length) _ 0
        (le_refl _) hHL
    have hmemL : ∀ c, c ∈ (swapIdx heap 0 (heap.length - 1)).dropLast → c ∈ heap := by
      intro c hc
      have hc' : c ∈ swapIdx heap 0 (heap.length - 1) :=
        (List.dropLast_sublist _).subset hc
      exact (mem_swapIdx_iff hlen hlast c).mp hc'
    refine ⟨by rw [adlen, hLlen], ?_, ?_, adH, ?_⟩
    · -- the total length cannot grow: only the empty root was dropped
      rw [adtl]
      have heq := totalLen_swapIdx hlen hlast
      have hdrop := totalLen_dropLast_le (swapIdx heap 0 (heap.length - 1))
      omega
    · intro c hc
      exact hmemL c ((admem c).mp hc)
    · intro x
      rw [memU_iff_pos, memU_iff_pos]
      constructor
      · rintro ⟨p, hp, hx⟩
        rw [adlen, hLlen] at hp
        -- trace the value back through the sift-down permutation
        obtain ⟨q, hqs, hql, hqe⟩ := adperm p (subtree_zero_all p) (by rw [hLlen]; omega)
        rw [hLlen] at hql
        rw [hqe, hLget q hql] at hx
        by_cases hq0 : q = 0
        · rw [if_pos hq0] at hx
          exact ⟨heap.length - 1, by omega, hx⟩
        · rw [if_neg hq0] at hx
          exact ⟨q, by omega, hx⟩
      · rintro ⟨p, hp, hx⟩
        have hp0 : p ≠ 0 := by
          intro he
          subst he
          rw [hroot] at hx
          cases hx
        -- find where the value now lives
        by_cases hpl : p = heap.length - 1
        · subst hpl
          -- it was swapped into slot 0
          obtain ⟨q, hqs, hql, hqe⟩ := adperm 0 (InSubtree.refl 0) (by rw [hLlen]; omega)
          -- not needed: instead use that membership in the family is preserved
          have hx0 : x ∈ ((swapIdx heap 0 (heap.length - 1)).dropLast).getD 0 [] := by
            rw [hLget 0 (by omega), if_pos rfl]
            exact hx
          have hmem : memU ((swapIdx heap 0 (heap.length - 1)).dropLast) x :=
            (memU_iff_pos _ x).mpr ⟨0, by rw [hLlen]; omega, hx0⟩
          obtain ⟨c, hc, hxc⟩ := hmem
          obtain ⟨r, hr, hre⟩ := (mem_iff_getD _ c []).mp ((admem c).mpr hc)
          exact (memU_iff_pos _ x).mp ⟨c, hre ▸ getD_mem hr [], hxc⟩
        · have hx0 : x ∈ ((swapIdx heap 0 (heap.length - 1)).dropLast).getD p [] := by
            rw [hLget p (by omega), if_neg hp0]
            exact hx
          have hmem : memU ((swapIdx heap 0 (heap.length - 1)).dropLast) x :=
            (memU_iff_pos _ x).mpr ⟨p, by rw [hLlen]; omega, hx0⟩
          obtain ⟨c, hc, hxc⟩ := hmem
          obtain ⟨r, hr, hre⟩ := (mem_iff_getD _ c []).mp ((admem c).mpr hc)
          exact (memU_iff_pos _ x).mp ⟨c, hre ▸ getD_mem hr [], hxc⟩

/-- `adjustDown` only swaps elements: the family size and the total number
of remaining values are untouched (no heap hypothesis needed). -/
theorem adjustDown_len_totalLen : ∀ k heap p, heap.length - p ≤ k →
    (adjustDown heap p).length = heap.length ∧
    totalLen (adjustDown heap p) = totalLen heap := by
  intro k
  induction k with
  | zero =>
    intro heap p hk
    rw [adjustDown, dif_neg (by omega)]
    exact ⟨rfl, rfl⟩
  | succ k ih =>
    intro heap p hk
    by_cases h : 2 * p + 1 < heap.length
    · have hmcr := minChildIdx_ge heap p
      have hmclt : minChildIdx heap p < heap.length := by
        unfold minChildIdx
        by_cases hc : 2 * p + 2 < heap.length ∧
            cvalue (heap.getD (2 * p + 2) []) < cvalue (heap.getD (2 * p + 1) [])
        · rw [if_pos hc]; omega
        · rw [if_neg hc]; omega
      have hplt : p < heap.length := by omega
      by_cases hsw : cvalue (heap.getD (minChildIdx heap p) []) < cvalue (heap.getD p [])
      · rw [adjustDown, dif_pos h, if_pos hsw]
        obtain ⟨ihl, iht⟩ := ih (swapIdx heap p (minChildIdx heap p)) (minChildIdx heap p)
          (by rw [length_swapIdx]; omega)
        rw [ihl, iht, length_swapIdx, totalLen_swapIdx hplt hmclt]
        exact ⟨rfl, rfl⟩
      · rw [adjustDown, dif_pos h, if_neg hsw]
        exact ⟨rfl, rfl⟩
    · rw [adjustDown, dif_neg h]
      exact ⟨rfl, rfl⟩

theorem popHeap_len_totalLen (heap : List (List Nat)) :
    (popHeap heap).length = heap.length - 1 ∧
    totalLen (popHeap heap) ≤ totalLen heap := by
  by_cases h1 : heap.length ≤ 1
  · rw [popHeap, if_pos h1]
    constructor
    · simp
      omega
    · simp [totalLen]
  · rw [popHeap, if_neg h1]
    have hlen : (0 : Nat) < heap.length := by omega
    have hlast : heap.length - 1 < heap.length := by omega
    obtain ⟨adl, adt⟩ := adjustDown_len_totalLen
      (((swapIdx heap 0 (heap.length - 1)).dropLast).length) _ 0 (le_refl _)
    rw [adl, adt, List.length_dropLast, length_swapIdx]
    refine ⟨rfl, ?_⟩
    have h1' := totalLen_dropLast_le (swapIdx heap 0 (heap.length - 1))
    have h2' := totalLen_swapIdx hlen hlast
    omega

/-- The loop body of `OrIterator::next` (`iterator.cc` lines 207–215):
while the heap is non-empty and the root still reports `current`, advance
the root child; sift it down if it stays live, pop it otherwise. -/
def orNextGo (cs : List (List Nat)) (current : Nat) : List (List Nat) :=
  if h : cs ≠ [] ∧ cvalue (cs.getD 0 []) = current then
    if hv : cvalid (cnext (cs.getD 0 [])) then
      orNextGo (adjustDown (cs.set 0 (cnext (cs.getD 0 []))) 0) current
    else
      orNextGo (popHeap (cs.set 0 (cnext (cs.getD 0 [])))) current
  else cs
termination_by cs.length + totalLen cs
decreasing_by
  · -- the root child stays live: its sequence got one element shorter
    have hrne : cs.getD 0 [] ≠ [] := by
      intro he
      rw [he] at hv
      simp [cnext, cvalid] at hv
    have hlen : (0 : Nat) < cs.length := by
      rcases h with ⟨hne, _⟩
      cases cs
      · exact absurd rfl hne
      · simp
    have htail : (cnext (cs.getD 0 [])).length < (cs.getD 0 []).length := by
      rcases hc : cs.getD 0 [] with _ | ⟨y, t⟩
      · exact absurd hc hrne
      · simp [cnext]
    have hset : totalLen (cs.set 0 (cnext (cs.getD 0 []))) < totalLen cs :=
      totalLen_set_lt hlen htail
    obtain ⟨adl, adt⟩ := adjustDown_len_totalLen
      ((cs.set 0 (cnext (cs.getD 0 []))).length) (cs.set 0 (cnext (cs.getD 0 []))) 0
      (le_refl _)
    rw [adl, adt]
    have hsl : (cs.set 0 (cnext (cs.getD 0 []))).length = cs.length :=
      List.length_set cs 0 _
    omega
  · -- the root child exhausted: the heap shrinks by one slot
    have hlen : (0 : Nat) < cs.length := by
      rcases h with ⟨hne, _⟩
      cases cs
      · exact absurd rfl hne
      · simp
    obtain ⟨hpl, hpt⟩ := popHeap_len_totalLen (cs.set 0 (cnext (cs.getD 0 [])))
    have hsl : (cs.set 0 (cnext (cs.getD 0 []))).length = cs.length := by simp
    have hst : totalLen (cs.set 0 (cnext (cs.getD 0 []))) ≤ totalLen cs := by
      apply totalLen_set_le hlen
      rcases hc : cs.getD 0 [] with _ | ⟨y, t⟩
      · simp [cnext]
      · simp [cnext]
    omega

/-- Correctness of the `next()` loop: starting from a well-formed min-heap
all of whose children are at or above `current`, the loop removes exactly
the occurrences of `current`, keeps the heap property, and leaves every
child strictly above `current`. -/
theorem orNextGo_spec : ∀ n cs current, cs.length + totalLen cs ≤ n →
    WFFam cs → IsMinHeap cs → (∀ c ∈ cs, current ≤ cvalue c) →
    current < kInvalidDocId →
    WFFam (orNextGo cs current) ∧
    IsMinHeap (orNextGo cs current) ∧
    (∀ c ∈ orNextGo cs current, current < cvalue c) ∧
    (∀ x, memU (orNextGo cs current) x ↔ memU cs x ∧ x ≠ current) ∧
    (orNextGo cs current).length + totalLen (orNextGo cs current)
      ≤ cs.length + totalLen cs ∧
    ((cs ≠ [] ∧ cvalue (cs.getD 0 []) = current) →
      (orNextGo cs current).length + totalLen (orNextGo cs current)
        < cs.length + totalLen cs) := by
  intro n
  induction n with
  | zero =>
    intro cs current hn hw hH hge hcur
    have hcse : cs = [] := by
      cases cs
      · rfl
      · simp [totalLen] at hn
    subst hcse
    rw [orNextGo, dif_neg (by simp)]
    refine ⟨hw, hH, by simp, ?_, le_refl _, by simp⟩
    intro x
    simp [memU]
  | succ n ih =>
    intro cs current hn hw hH hge hcur
    by_cases h : cs ≠ [] ∧ cvalue (cs.getD 0 []) = current
    · obtain ⟨hcne, hroot⟩ := h
      have hlen : (0 : Nat) < cs.length := by
        cases cs
        · exact absurd rfl hcne
        · simp
      have hw0 : WFSeq (cs.getD 0 []) := hw _ (getD_mem hlen [])
      have hrne : cs.getD 0 [] ≠ [] := by
        intro he
        rw [he, cvalue_nil] at hroot
        omega
      obtain ⟨v, t, hft⟩ : ∃ v t, cs.getD 0 [] = v :: t := by
        rcases hc : cs.getD 0 [] with _ | ⟨y, t⟩
        · exact absurd hc hrne
        · exact ⟨y, t, rfl⟩
      have hveq : v = current := by
        rw [hft, cvalue_cons] at hroot
        exact hroot
      -- the structure after advancing the root child
      have hcs1len : (cs.set 0 (cnext (cs.getD 0 []))).length = cs.length :=
        List.length_set cs 0 _
      have hcs1get : (cs.set 0 (cnext (cs.getD 0 []))).getD 0 [] = t := by
        rw [getD_set_self hlen, hft]
        rfl
      have hH1 : HFrom (cs.set 0 (cnext (cs.getD 0 []))) 1 := by
        intro i j hj hjl hli
        rw [hcs1len] at hjl
        rw [getD_set_ne _ (by omega : (0:Nat) ≠ i), getD_set_ne _ (by omega : (0:Nat) ≠ j)]
        exact hH i j hj hjl (by omega)
      have hmem1 : ∀ c, c ∈ cs.set 0 (cnext (cs.getD 0 [])) → c ∈ cs ∨ c = t := by
        intro c hc
        rcases List.mem_or_eq_of_mem_set hc with hc' | hc'
        · exact Or.inl hc'
        · right
          rw [hc', hft]
          rfl
      have hwt : WFSeq t := by
        have := WFSeq_tail hw0
        rw [hft] at this
        exact this
      have htup : ∀ y ∈ t, current < y := by
        intro y hy
        have hp : List.Pairwise (· < ·) (v :: t) := by
          have := hw0.1
          rw [hft] at this
          exact List.chain'_iff_pairwise.mp this
        have := (List.pairwise_cons.mp hp).1 y hy
        omega
      have hmemU1 : ∀ x, x ≠ current →
          (memU (cs.set 0 (cnext (cs.getD 0 []))) x ↔ memU cs x) := by
        intro x hx
        rw [memU_iff_pos, memU_iff_pos]
        constructor
        · rintro ⟨p, hp, hxp⟩
          rw [hcs1len] at hp
          by_cases hp0 : p = 0
          · subst hp0
            rw [hcs1get] at hxp
            refine ⟨0, hlen, ?_⟩
            rw [hft]
            exact List.mem_cons_of_mem _ hxp
          · rw [getD_set_ne _ (fun he => hp0 he.symm)] at hxp
            exact ⟨p, hp, hxp⟩
        · rintro ⟨p, hp, hxp⟩
          by_cases hp0 : p = 0
          · subst hp0
            rw [hft] at hxp
            rcases List.mem_cons.mp hxp with rfl | hxt
            · exact absurd hveq hx
            · refine ⟨0, by omega, ?_⟩
              rw [hcs1get]
              exact hxt
          · refine ⟨p, by omega, ?_⟩
            rw [getD_set_ne _ (fun he => hp0 he.symm)]
            exact hxp
      by_cases hv : cvalid (cnext (cs.getD 0 [])) = true
      · -- the advanced root is still live: sift it down and loop
        rw [orNextGo, dif_pos ⟨hcne, hroot⟩, dif_pos hv]
        have htne : t ≠ [] := by
          rw [hft] at hv
          simpa [cnext, cvalid_iff] using hv
        obtain ⟨adlen, adtl, adout, admem, adH, adperm⟩ :=
          adjustDown_spec ((cs.set 0 (cnext (cs.getD 0 []))).length)
            (cs.set 0 (cnext (cs.getD 0 []))) 0 (le_refl _) hH1
        have hw2 : WFFam (adjustDown (cs.set 0 (cnext (cs.getD 0 []))) 0) := by
          intro c hc
          rcases hmem1 c ((admem c).mp hc) with hc' | rfl
          · exact hw c hc'
          · exact hwt
        have hge2 : ∀ c ∈ adjustDown (cs.set 0 (cnext (cs.getD 0 []))) 0,
            current ≤ cvalue c := by
          intro c hc
          rcases hmem1 c ((admem c).mp hc) with hc' | heq
          · exact hge c hc'
          · rw [heq]
            exact le_of_lt (htup _ (cvalue_mem htne))
        have hmeas2 : (adjustDown (cs.set 0 (cnext (cs.getD 0 []))) 0).length
            + totalLen (adjustDown (cs.set 0 (cnext (cs.getD 0 []))) 0)
            < cs.length + totalLen cs := by
          rw [adlen, adtl, hcs1len]
          have : totalLen (cs.set 0 (cnext (cs.getD 0 []))) < totalLen cs := by
            apply totalLen_set_lt hlen
            rw [hft]
            simp [cnext]
          omega
        obtain ⟨ihw, ihH, ihgt, ihmem, ihle, _⟩ :=
          ih (adjustDown (cs.set 0 (cnext (cs.getD 0 []))) 0) current
            (by omega) hw2 adH hge2 hcur
        refine ⟨ihw, ihH, ihgt, ?_, by omega, fun _ => by omega⟩
        intro x
        rw [ihmem x]
        constructor
        · rintro ⟨hm, hx⟩
          refine ⟨?_, hx⟩
          obtain ⟨c, hc, hxc⟩ := hm
          have : memU (cs.set 0 (cnext (cs.getD 0 []))) x := ⟨c, (admem c).mp hc, hxc⟩
          exact (hmemU1 x hx).mp this
        · rintro ⟨hm, hx⟩
          refine ⟨?_, hx⟩
          obtain ⟨c, hc, hxc⟩ := (hmemU1 x hx).mpr hm
          exact ⟨c, (admem c).mpr hc, hxc⟩
      · -- the advanced root is exhausted: pop it and loop
        rw [orNextGo, dif_pos ⟨hcne, hroot⟩, dif_neg hv]
        have hte : t = [] := by
          rw [hft] at hv
          simpa [cnext, cvalid_false_iff] using hv
        have hpne : cs.set 0 (cnext (cs.getD 0 [])) ≠ [] := by
          intro he
          have := hcs1len
          rw [he] at this
          simp at this
          omega
        have hpget : (cs.set 0 (cnext (cs.getD 0 []))).getD 0 [] = [] := by
          rw [hcs1get, hte]
        obtain ⟨pplen, pptl, ppsub, ppH, ppmem⟩ :=
          popHeap_spec hpne hpget hH1
        have hw2 : WFFam (popHeap (cs.set 0 (cnext (cs.getD 0 [])))) := by
          intro c hc
          rcases hmem1 c (ppsub c hc) with hc' | rfl
          · exact hw c hc'
          · rw [hte]
            exact ⟨List.chain'_nil, by simp⟩
        have hge2 : ∀ c ∈ popHeap (cs.set 0 (cnext (cs.getD 0 []))),
            current ≤ cvalue c := by
          intro c hc
          rcases hmem1 c (ppsub c hc) with hc' | rfl
          · exact hge c hc'
          · rw [hte, cvalue_nil]
            omega
        have hmeas2 : (popHeap (cs.set 0 (cnext (cs.getD 0 [])))).length
            + totalLen (popHeap (cs.set 0 (cnext (cs.getD 0 []))))
            < cs.length + totalLen cs := by
          have hst : totalLen (cs.set 0 (cnext (cs.getD 0 []))) ≤ totalLen cs := by
            apply totalLen_set_le hlen
            rcases hc : cs.getD 0 [] with _ | ⟨y, t'⟩
            · simp [cnext]
            · simp [cnext]
          rw [pplen, hcs1len]
          omega
        obtain ⟨ihw, ihH, ihgt, ihmem, ihle, _⟩ :=
          ih (popHeap (cs.set 0 (cnext (cs.getD 0 [])))) current
            (by omega) hw2 ppH hge2 hcur
        refine ⟨ihw, ihH, ihgt, ?_, by omega, fun _ => by omega⟩
        intro x
        rw [ihmem x]
        constructor
        · rintro ⟨hm, hx⟩
          exact ⟨(hmemU1 x hx).mp ((ppmem x).mp hm), hx⟩
        · rintro ⟨hm, hx⟩
          exact ⟨(ppmem x).mpr ((hmemU1 x hx).mpr hm), hx⟩
    · -- the loop does not run

      rw [orNextGo, dif_neg h]
      have hstrict : ∀ c ∈ cs, current < cvalue c := by
        intro c hc
        rcases (mem_iff_getD cs c []).mp hc with ⟨p, hp, rfl⟩
        by_cases hcne : cs = []
        · subst hcne
          simp at hp
        · have hne : ¬ cvalue (cs.getD 0 []) = current := by
            intro he
            exact h ⟨hcne, he⟩
          have hr := root_min hH p hp
          have hr0 := hge _ (getD_mem (show 0 < cs.length by omega) [])
          omega
      refine ⟨hw, hH, hstrict, ?_, le_refl _, fun hc => absurd hc h⟩
      intro x
      constructor
      · rintro ⟨c, hc, hxc⟩
        refine ⟨⟨c, hc, hxc⟩, ?_⟩
        have h1 := hstrict c hc
        have h2 := le_cvalue_of_mem (hw c hc).1 hxc
        omega
      · exact fun hx => hx.1

structure OrIterator where
  children : List (List Nat)
deriving Repr, DecidableEq

namespace OrIterator

/-- `valid()`: `!children_.empty() && children_[0]->valid()`. -/
def valid (s : OrIterator) : Bool :=
  !s.children.isEmpty && cvalid (s.children.getD 0 [])

/-- `valueUnsafe()`: `children_[0]->value()`. -/
def valueUnsafe (s : OrIterator) : Nat := cvalue (s.children.getD 0 [])

/-- Public `value()` from the `Iterator` base class. -/
def value (s : OrIterator) : Nat :=
  if s.valid then s.valueUnsafe else kInvalidDocId

/-- `next()` (`iterator.cc` lines 202–218). -/
def next (s : OrIterator) : OrIterator × Bool :=
  if s.valid then
    (⟨orNextGo s.children s.value⟩,
      !(orNextGo s.children s.value).isEmpty
        && cvalid ((orNextGo s.children s.value).getD 0 []))
  else
    (s, false)

/-- `skipTo(target)` (`iterator.cc` lines 224–240): skip every child,
compact out the exhausted ones (stably), re-heapify. -/
def skipTo (t : Nat) (s : OrIterator) : OrIterator × Bool :=
  (⟨makeHeap ((s.children.map (cskipTo t)).filter cvalid)⟩,
    !(makeHeap ((s.children.map (cskipTo t)).filter cvalid)).isEmpty
      && cvalid ((makeHeap ((s.children.map (cskipTo t)).filter cvalid)).getD 0 []))

end OrIterator

/-- The `OrIterator` constructor (`iterator.cc` lines 192–200): requires a
non-empty family and heapifies it. -/
def mkOrIterator (children : List (List Nat)) : OrIterator :=
  ⟨makeHeap children⟩

/-- The `next()` loop never grows the state, and shrinks it strictly
whenever its guard initially holds (no heap hypotheses needed). -/
theorem orNextGo_measure : ∀ n cs current, cs.length + totalLen cs ≤ n →
    (orNextGo cs current).length + totalLen (orNextGo cs current)
      ≤ cs.length + totalLen cs ∧
    ((cs ≠ [] ∧ cvalue (cs.getD 0 []) = current) →
      (orNextGo cs current).length + totalLen (orNextGo cs current)
        < cs.length + totalLen cs) := by
  intro n
  induction n with
  | zero =>
    intro cs current hn
    have hcse : cs = [] := by
      cases cs
      · rfl
      · simp [totalLen] at hn
    subst hcse
    rw [orNextGo, dif_neg (by simp)]
    exact ⟨le_refl _, by simp⟩
  | succ n ih =>
    intro cs current hn
    by_cases h : cs ≠ [] ∧ cvalue (cs.getD 0 []) = current
    · have hlen : (0 : Nat) < cs.length := by
        cases cs with
        | nil => exact absurd rfl h.1
        | cons c cs' => simp
      by_cases hv : cvalid (cnext (cs.getD 0 [])) = true
      · rw [orNextGo, dif_pos h, dif_pos hv]
        have hrne : cs.getD 0 [] ≠ [] := by
          intro he
          rw [he] at hv
          simp [cnext, cvalid] at hv
        have htail : (cnext (cs.getD 0 [])).length < (cs.getD 0 []).length := by
          rcases hc : cs.getD 0 [] with _ | ⟨y, t⟩
          · exact absurd hc hrne
          · simp [cnext]
        have hset : totalLen (cs.set 0 (cnext (cs.getD 0 []))) < totalLen cs :=
          totalLen_set_lt hlen htail
        obtain ⟨adl, adt⟩ := adjustDown_len_totalLen
          ((cs.set 0 (cnext (cs.getD 0 []))).length)
          (cs.set 0 (cnext (cs.getD 0 []))) 0 (le_refl _)
        have hsl : (cs.set 0 (cnext (cs.getD 0 []))).length = cs.length :=
          List.length_set cs 0 _
        have hmeas : (adjustDown (cs.set 0 (cnext (cs.getD 0 []))) 0).length
            + totalLen (adjustDown (cs.set 0 (cnext (cs.getD 0 []))) 0)
            < cs.length + totalLen cs := by
          rw [adl, adt]
          omega
        have := (ih (adjustDown (cs.set 0 (cnext (cs.getD 0 []))) 0) current
          (by omega)).1
        exact ⟨by omega, fun _ => by omega⟩
      · rw [orNextGo, dif_pos h, dif_neg hv]
        obtain ⟨hpl, hpt⟩ := popHeap_len_totalLen (cs.set 0 (cnext (cs.getD 0 [])))
        have hsl : (cs.set 0 (cnext (cs.getD 0 []))).length = cs.length :=
          List.length_set cs 0 _
        have hst : totalLen (cs.set 0 (cnext (cs.getD 0 []))) ≤ totalLen cs := by
          apply totalLen_set_le hlen
          rcases hc : cs.getD 0 [] with _ | ⟨y, t⟩
          · simp [cnext]
          · simp [cnext]
        have hmeas : (popHeap (cs.set 0 (cnext (cs.getD 0 [])))).length
            + totalLen (popHeap (cs.set 0 (cnext (cs.getD 0 []))))
            < cs.length + totalLen cs := by
          rw [hpl]
          omega
        have := (ih (popHeap (cs.set 0 (cnext (cs.getD 0 [])))) current
          (by omega)).1
        exact ⟨by omega, fun _ => by omega⟩
    · rw [orNextGo, dif_neg h]
      exact ⟨le_refl _, fun hc => absurd hc h⟩

namespace OrIterator

theorem next_measure_lt (s : OrIterator) (h : s.valid = true) :
    ((s.next).1).children.length + totalLen ((s.next).1).children
      < s.children.length + totalLen s.children := by
  have hne : s.children ≠ [] := by
    intro he
    rw [valid, he] at h
    simp at h
  have hvv : s.value = cvalue (s.children.getD 0 []) := by
    rw [value, if_pos h]
    rfl
  have hguard : s.children ≠ [] ∧ cvalue (s.children.getD 0 []) = s.value :=
    ⟨hne, hvv.symm⟩
  have := (orNextGo_measure (s.children.length + totalLen s.children)
    s.children s.value (le_refl _)).2 hguard
  rw [next, if_pos h]
  exact this

/-- The sequence of values observed by driving the cursor with `next()`. -/
def toList (s : OrIterator) : List Nat :=
  if h : s.valid = true then s.value :: toList ((s.next).1) else []
termination_by s.children.length + totalLen s.children
decreasing_by
  exact next_measure_lt s h

end OrIterator

/-- Main lemma for `OrIterator`: from any well-formed min-heap state,
driving the cursor yields a strictly ascending enumeration of exactly the
values present in some child. -/
theorem orToList_spec (n : Nat) : ∀ cs : List (List Nat),
    cs.length + totalLen cs ≤ n → WFFam cs → IsMinHeap cs →
    List.Chain' (· < ·) (OrIterator.toList ⟨cs⟩) ∧
    (∀ x, x ∈ OrIterator.toList ⟨cs⟩ ↔ memU cs x) := by
  induction n with
  | zero =>
    intro cs hn hw hH
    have hcse : cs = [] := by
      cases cs
      · rfl
      · simp [totalLen] at hn
    subst hcse
    rw [OrIterator.toList, dif_neg (by simp [OrIterator.valid])]
    refine ⟨List.chain'_nil, fun x => ?_⟩
    simp [memU]
  | succ n ih =>
    intro cs hn hw hH
    by_cases hv : OrIterator.valid ⟨cs⟩ = true
    · have hne : cs ≠ [] := by
        intro he
        rw [OrIterator.valid, he] at hv
        simp at hv
      have hlen : (0 : Nat) < cs.length := by
        cases cs with
        | nil => exact absurd rfl hne
        | cons c cs' => simp
      have hcv : cvalid (cs.getD 0 []) = true := by
        rw [OrIterator.valid] at hv
        exact (Bool.and_eq_true _ _ |>.mp hv).2
      have hrne : cs.getD 0 [] ≠ [] := by simpa [cvalid_iff] using hcv
      have hw0 : WFSeq (cs.getD 0 []) := hw _ (getD_mem hlen [])
      have hvv : OrIterator.value ⟨cs⟩ = cvalue (cs.getD 0 []) := by
        rw [OrIterator.value, if_pos hv]
        rfl
      have hvlt : OrIterator.value ⟨cs⟩ < kInvalidDocId := by
        rw [hvv]
        exact cvalue_lt_sentinel hw0 hrne
      have hge : ∀ c ∈ cs, OrIterator.value ⟨cs⟩ ≤ cvalue c := by
        intro c hc
        rcases (mem_iff_getD cs c []).mp hc with ⟨p, hp, rfl⟩
        rw [hvv]
        exact root_min hH p hp
      obtain ⟨ogw, ogH, oggt, ogmem, ogle, ogstrict⟩ :=
        orNextGo_spec (cs.length + totalLen cs) cs (OrIterator.value ⟨cs⟩)
          (le_refl _) hw hH hge hvlt
      have hguard : cs ≠ [] ∧ cvalue (cs.getD 0 []) = OrIterator.value ⟨cs⟩ :=
        ⟨hne, hvv.symm⟩
      have hmeas := ogstrict hguard
      obtain ⟨ihchain, ihmem⟩ :=
        ih (orNextGo cs (OrIterator.value ⟨cs⟩)) (by omega) ogw ogH
      have hnext : ((OrIterator.next ⟨cs⟩).1)
          = (⟨orNextGo cs (OrIterator.value ⟨cs⟩)⟩ : OrIterator) := by
        rw [OrIterator.next, if_pos hv]
      rw [OrIterator.toList, dif_pos hv, hnext]
      constructor
      · rw [List.chain'_cons']
        refine ⟨?_, ihchain⟩
        intro y hy
        have hymem := (ihmem y).mp (List.mem_of_mem_head? hy)
        obtain ⟨c, hc, hyc⟩ := hymem
        have h1 := oggt c hc
        have h2 := le_cvalue_of_mem (ogw c hc).1 hyc
        omega
      · intro x
        rw [List.mem_cons, ihmem x, ogmem x]
        constructor
        · rintro (rfl | ⟨hm, _⟩)
          · refine ⟨cs.getD 0 [], getD_mem hlen [], ?_⟩
            rw [hvv]
            exact cvalue_mem hrne
          · exact hm
        · intro hm
          by_cases hx : x = OrIterator.value ⟨cs⟩
          · exact Or.inl hx
          · exact Or.inr ⟨hm, hx⟩
    · -- exhausted: either no children or the root (hence everything) is done
      rw [OrIterator.toList, dif_neg hv]
      refine ⟨List.chain'_nil, fun x => ?_⟩
      simp only [List.not_mem_nil, false_iff]
      rintro ⟨c, hc, hxc⟩
      have hne : cs ≠ [] := by
        intro he
        rw [he] at hc
        cases hc
      have hlen : (0 : Nat) < cs.length := by
        cases cs with
        | nil => exact absurd rfl hne
        | cons c' cs' => simp
      have hcv : cvalid (cs.getD 0 []) = false := by
        cases hb : cvalid (cs.getD 0 [])
        · rfl
        · exfalso
          apply hv
          rw [OrIterator.valid]
          have hnemp : cs.isEmpty = false := by
            cases cs with
            | nil => exact absurd rfl hne
            | cons c' cs' => rfl
          rw [hnemp, hb]
          rfl
      have hroot : cs.getD 0 [] = [] := (cvalid_false_iff _).mp hcv
      -- the root is the minimum, so every child is exhausted
      rcases (mem_iff_getD cs c []).mp hc with ⟨p, hp, rfl⟩
      have hmin := root_min hH p hp
      rw [hroot, cvalue_nil] at hmin
      have hcne : cs.getD p [] ≠ [] := by
        intro he
        rw [he] at hxc
        cases hxc
      have := cvalue_lt_sentinel (hw _ (getD_mem hp [])) hcne
      omega

/-- Claim C2: for every family of `k ≥ 1` well-formed child sequences, the
`OrIterator` emits the set union in strictly ascending order, each distinct
identifier exactly once. -/
theorem orIterator_emits_union (cs : List (List Nat)) (hne : cs ≠ [])
    (hw : ∀ c ∈ cs, List.Chain' (· < ·) c ∧ ∀ x ∈ c, x < kInvalidDocId) :
    List.Chain' (· < ·) (OrIterator.toList (mkOrIterator cs)) ∧
    (∀ x, x ∈ OrIterator.toList (mkOrIterator cs) ↔ ∃ c ∈ cs, x ∈ c) := by
  obtain ⟨mhlen, mhtl, mhmem, mhH⟩ := makeHeap_spec cs
  have hw2 : WFFam (makeHeap cs) := by
    intro c hc
    exact hw c ((mhmem c).mp hc)
  obtain ⟨hchain, hmem⟩ :=
    orToList_spec ((makeHeap cs).length + totalLen (makeHeap cs)) (makeHeap cs)
      (le_refl _) hw2 mhH
  refine ⟨hchain, fun x => ?_⟩
  rw [mkOrIterator]
  rw [hmem x]
  constructor
  · rintro ⟨c, hc, hxc⟩
    exact ⟨c, (mhmem c).mp hc, hxc⟩
  · rintro ⟨c, hc, hxc⟩
    exact ⟨c, (mhmem c).mpr hc, hxc⟩

/-! ### `skipTo` (claim C4) -/

/-- When `nextAgreement` succeeds, slot 0 is still valid (provided it was
valid on entry and the scan position is in range). -/
theorem naGo_front_valid : ∀ cs pos, 1 ≤ pos → (naGo cs pos).2 = true →
    cvalid (cs.getD 0 []) = true →
    cvalid ((naGo cs pos).1.getD 0 []) = true := by
  intro cs pos
  induction cs, pos using naGo.induct with
  | case1 cs pos h hv hlt hov ih =>
    intro hpos hok hfv
    rw [naGo, dif_pos h, dif_pos hv, dif_pos hlt, dif_pos hov] at hok ⊢
    by_cases hcv : cvalid ((swapIdx (cs.set pos (cskipTo (cvalue (cs.getD 0 [])) (cs.getD pos []))) 0 pos).getD 0 []) = true
    · exact ih (le_refl _) hok hcv
    · exfalso
      rw [naGo, dif_pos (by rw [length_swapIdx]; simp; omega), dif_neg hcv] at hok
      simp at hok
  | case2 cs pos h hv hlt hov ih =>
    intro hpos hok hfv
    rw [naGo, dif_pos h, dif_pos hv, dif_pos hlt, dif_neg hov] at hok ⊢
    have hfv' : cvalid ((cs.set pos (cskipTo (cvalue (cs.getD 0 [])) (cs.getD pos []))).getD 0 []) = true := by
      rw [getD_set_ne _ (by omega : pos ≠ 0)]
      exact hfv
    exact ih (by omega) hok hfv'
  | case3 cs pos h hv hlt ih =>
    intro hpos hok hfv
    rw [naGo, dif_pos h, dif_pos hv, dif_neg hlt] at hok ⊢
    exact ih (by omega) hok hfv
  | case4 cs pos h hv =>
    intro hpos hok hfv
    exact absurd hfv hv
  | case5 cs pos h =>
    intro hpos hok hfv
    rw [naGo, dif_neg h]
    exact hfv

/-- `DiffIterator::nextAgreement` returns exactly the validity of its
left child. -/
theorem diffNA_ok (l r : List Nat) :
    (diffNA l r).2 = cvalid (diffNA l r).1.1 := by
  induction l generalizing r with
  | nil => simp [diffNA, cvalid]
  | cons x t ih =>
    rw [diffNA]
    by_cases h : cvalid (cskipTo x r) = false ∨ x < cvalue (cskipTo x r)
    · rw [if_pos h]
      simp [cvalid]
    · rw [if_neg h]
      exact ih (cskipTo x r)

/-- A diff state is aligned when its current left value is not a member of
the right remainder (all states produced by `nextAgreement` qualify). -/
def DiffAligned (s : DiffIterator) : Prop :=
  s.lhs ≠ [] → cvalue s.lhs ∉ s.rhs

/-- `nextAgreement` leaves an aligned state behind. -/
theorem diffNA_aligned {l r : List Nat} (hr : List.Chain' (· < ·) r) :
    DiffAligned ⟨(diffNA l r).1.1, (diffNA l r).1.2⟩ := by
  induction l generalizing r with
  | nil => intro h; exact absurd rfl h
  | cons x t ih =>
    rw [diffNA]
    by_cases h : cvalid (cskipTo x r) = false ∨ x < cvalue (cskipTo x r)
    · rw [if_pos h]
      intro _ hmem
      simp only [cvalue_cons] at hmem
      rcases h with hinv | hover
      · rw [(cvalid_false_iff _).mp hinv] at hmem
        cases hmem
      · have := le_cvalue_of_mem (chain'_cskipTo x hr) hmem
        omega
    · rw [if_neg h]
      exact ih (chain'_cskipTo x hr)

/-- On an aligned state, the remaining emitted sequence of the diff cursor
is the filtered left remainder. -/
theorem diffToList_aligned {l r : List Nat} (hl : List.Chain' (· < ·) l)
    (hr : List.Chain' (· < ·) r) (hal : DiffAligned ⟨l, r⟩) :
    DiffIterator.toList ⟨l, r⟩ = l.filter (fun x => decide (x ∉ r)) := by
  rcases l with _ | ⟨x, t⟩
  · rw [DiffIterator.toList, dif_neg (by simp [DiffIterator.valid, cvalid])]
    simp
  · have hxr : x ∉ r := by
      have := hal (by simp)
      simpa [cvalue_cons] using this
    have hvalid : DiffIterator.valid ⟨x :: t, r⟩ = true := by
      simp [DiffIterator.valid, cvalid]
    rw [DiffIterator.toList, dif_pos hvalid]
    have hval : DiffIterator.value ⟨x :: t, r⟩ = x := by
      rw [DiffIterator.value, if_pos hvalid]
      rfl
    have hnexteq : DiffIterator.toList ((DiffIterator.next ⟨x :: t, r⟩).1)
        = t.filter (fun y => decide (y ∉ r)) := by
      rw [DiffIterator.next, if_pos hvalid]
      by_cases hv : cvalid (cnext (⟨x :: t, r⟩ : DiffIterator).lhs) = true
      · simp only [if_pos hv]
        have := diffToList_spec t.length t r (le_refl _) hl.tail hr
        rw [mkDiffIterator] at this
        exact this
      · simp only [if_neg hv]
        have hte : t = [] := by
          simpa [cnext, cvalid_iff] using hv
        subst hte
        rw [DiffIterator.toList, dif_neg (by simp [DiffIterator.valid, cnext, cvalid])]
        simp
    rw [hnexteq, hval, List.filter_cons_of_pos (by simpa using hxr)]

/-- `VectorIterator::skipTo` repositions to the first remaining value
`≥ target`: the observable sequence loses exactly its prefix below the
target, and the returned flag is the new validity. -/
theorem vector_skipTo_spec (t : Nat) (v : VectorIterator) :
    VectorIterator.toList ((VectorIterator.skipTo t v).1)
      = (VectorIterator.toList v).dropWhile (fun x => x < t) ∧
    (VectorIterator.skipTo t v).2 = ((VectorIterator.skipTo t v).1).valid := by
  constructor
  · rw [VectorIterator.toList_eq_remaining, VectorIterator.toList_eq_remaining,
      VectorIterator.remaining_skipTo]
    rfl
  · rfl

theorem diffIterator_toList_invalid {s : DiffIterator}
    (h : s.valid = false) : s.toList = [] := by
  rw [DiffIterator.toList, dif_neg (by rw [h]; simp)]

/-- `DiffIterator::skipTo` on sorted aligned states. -/
theorem diff_skipTo_spec (t : Nat) (s : DiffIterator)
    (hl : List.Chain' (· < ·) s.lhs) (hr : List.Chain' (· < ·) s.rhs)
    (hal : DiffAligned s) :
    DiffIterator.toList ((DiffIterator.skipTo t s).1)
      = (DiffIterator.toList s).dropWhile (fun x => x < t) ∧
    (DiffIterator.skipTo t s).2 = ((DiffIterator.skipTo t s).1).valid := by
  obtain ⟨l, r⟩ := s
  have hbase : DiffIterator.toList ⟨l, r⟩ = l.filter (fun x => decide (x ∉ r)) :=
    diffToList_aligned hl hr hal
  by_cases hv1 : cvalid (cskipTo t l) = true
  · have hskip : DiffIterator.skipTo t ⟨l, r⟩
        = (⟨(diffNA (cskipTo t l) r).1.1, (diffNA (cskipTo t l) r).1.2⟩,
            (diffNA (cskipTo t l) r).2) := by
      rw [DiffIterator.skipTo]
      simp only [if_pos hv1]
    have hres : DiffIterator.toList ((DiffIterator.skipTo t ⟨l, r⟩).1)
        = (cskipTo t l).filter (fun x => decide (x ∉ r)) := by
      rw [hskip]
      have := diffToList_spec (cskipTo t l).length (cskipTo t l) r (le_refl _)
        (chain'_cskipTo t hl) hr
      rw [mkDiffIterator] at this
      exact this
    constructor
    · rw [hres, hbase]
      apply sorted_eq_of_mem_iff
      · exact List.Chain'.sublist (chain'_cskipTo t hl) (List.filter_sublist _)
      · exact List.Chain'.sublist (List.Chain'.sublist hl (List.filter_sublist _))
          (List.dropWhile_sublist _)
      · intro x
        have h1 : x ∈ (cskipTo t l).filter (fun y => decide (y ∉ r))
            ↔ (x ∈ l ∧ t ≤ x) ∧ x ∉ r := by
          rw [List.mem_filter, mem_cskipTo_iff hl, decide_eq_true_eq]
        have h2 : x ∈ cskipTo t (l.filter (fun y => decide (y ∉ r)))
            ↔ (x ∈ l ∧ x ∉ r) ∧ t ≤ x := by
          rw [mem_cskipTo_iff (List.Chain'.sublist hl (List.filter_sublist _)),
            List.mem_filter, decide_eq_true_eq]
        rw [h1]
        have h2' : x ∈ (l.filter (fun y => decide (y ∉ r))).dropWhile (fun y => y < t)
            ↔ (x ∈ l ∧ x ∉ r) ∧ t ≤ x := h2
        rw [h2']
        tauto
    · rw [hskip]
      show (diffNA (cskipTo t l) r).2 = cvalid (diffNA (cskipTo t l) r).1.1
      exact diffNA_ok _ _
  · have hskip : DiffIterator.skipTo t ⟨l, r⟩ = (⟨cskipTo t l, r⟩, false) := by
      rw [DiffIterator.skipTo]
      simp only [if_neg hv1]
    have hnil : cskipTo t l = [] := by
      cases hb : cvalid (cskipTo t l)
      · exact (cvalid_false_iff _).mp hb
      · exact absurd hb hv1
    have hall : ∀ x ∈ l, x < t := by
      intro x hx
      have := List.dropWhile_eq_nil_iff.mp hnil
      simpa using this x hx
    constructor
    · rw [hskip]
      rw [diffIterator_toList_invalid (by
        show cvalid (cskipTo t l) = false
        rw [hnil]
        rfl)]
      rw [hbase]
      symm
      rw [List.dropWhile_eq_nil_iff]
      intro x hx
      have hxl : x ∈ l := (List.filter_sublist _).subset hx
      simpa using hall x hxl
    · rw [hskip]
      show false = cvalid (cskipTo t l)
      rw [hnil]
      rfl

/-- `OrIterator::skipTo` skips every child, compacts and re-heapifies; the
observable sequence loses exactly its prefix below the target. -/
theorem or_skipTo_spec (t : Nat) (s : OrIterator)
    (hw : WFFam s.children) (hH : IsMinHeap s.children) :
    OrIterator.toList ((OrIterator.skipTo t s).1)
      = (OrIterator.toList s).dropWhile (fun x => x < t) ∧
    (OrIterator.skipTo t s).2 = ((OrIterator.skipTo t s).1).valid := by
  obtain ⟨cs⟩ := s
  refine ⟨?_, rfl⟩
  have hskip : ((OrIterator.skipTo t ⟨cs⟩).1)
      = (⟨makeHeap ((cs.map (cskipTo t)).filter cvalid)⟩ : OrIterator) := rfl
  obtain ⟨mhlen, mhtl, mhmem, mhH⟩ := makeHeap_spec ((cs.map (cskipTo t)).filter cvalid)
  have hwf' : WFFam (makeHeap ((cs.map (cskipTo t)).filter cvalid)) := by
    intro c hc
    have hc1 : c ∈ (cs.map (cskipTo t)).filter cvalid := (mhmem c).mp hc
    have hc2 : c ∈ cs.map (cskipTo t) := (List.filter_sublist _).subset hc1
    obtain ⟨c₀, hc₀, rfl⟩ := List.mem_map.mp hc2
    exact WFSeq_cskipTo t (hw c₀ hc₀)
  obtain ⟨hchain1, hmem1⟩ :=
    orToList_spec ((makeHeap ((cs.map (cskipTo t)).filter cvalid)).length
        + totalLen (makeHeap ((cs.map (cskipTo t)).filter cvalid)))
      (makeHeap ((cs.map (cskipTo t)).filter cvalid)) (le_refl _) hwf' mhH
  obtain ⟨hchain0, hmem0⟩ :=
    orToList_spec (cs.length + totalLen cs) cs (le_refl _) hw hH
  rw [hskip]
  apply sorted_eq_of_mem_iff hchain1
    (List.Chain'.sublist hchain0 (List.dropWhile_sublist _))
  intro x
  rw [hmem1 x]
  have hmem2 : x ∈ (OrIterator.toList ⟨cs⟩).dropWhile (fun y => y < t)
      ↔ x ∈ OrIterator.toList ⟨cs⟩ ∧ t ≤ x := mem_cskipTo_iff hchain0 t x
  rw [hmem2, hmem0 x]
  constructor
  · rintro ⟨c, hc, hxc⟩
    have hc1 : c ∈ (cs.map (cskipTo t)).filter cvalid := (mhmem c).mp hc
    have hc2 : c ∈ cs.map (cskipTo t) := (List.filter_sublist _).subset hc1
    obtain ⟨c₀, hc₀, rfl⟩ := List.mem_map.mp hc2
    obtain ⟨hx₀, hxt⟩ := (mem_cskipTo_iff (hw c₀ hc₀).1 t x).mp hxc
    exact ⟨⟨c₀, hc₀, hx₀⟩, hxt⟩
  · rintro ⟨⟨c₀, hc₀, hx₀⟩, hxt⟩
    refine ⟨cskipTo t c₀, ?_, (mem_cskipTo_iff (hw c₀ hc₀).1 t x).mpr ⟨hx₀, hxt⟩⟩
    apply (mhmem _).mpr
    apply List.mem_filter.mpr
    refine ⟨List.mem_map.mpr ⟨c₀, hc₀, rfl⟩, ?_⟩
    rw [cvalid_iff]
    intro he
    have := (mem_cskipTo_iff (hw c₀ hc₀).1 t x).mpr ⟨hx₀, hxt⟩
    rw [he] at this
    cases this

theorem andIterator_toList_invalid {s : AndIterator}
    (h : s.valid = false) : s.toList = [] := by
  rw [AndIterator.toList, dif_neg (by rw [h]; simp)]

/-- `AndIterator::skipTo` on well-formed post-alignment states. -/
theorem and_skipTo_spec (t : Nat) (s : AndIterator)
    (hw : WFFam s.children) (hne : s.children ≠ []) (hpost : AndPost s.children) :
    AndIterator.toList ((AndIterator.skipTo t s).1)
      = (AndIterator.toList s).dropWhile (fun x => x < t) ∧
    (AndIterator.skipTo t s).2 = ((AndIterator.skipTo t s).1).valid := by
  obtain ⟨cs⟩ := s
  have hlen : (0 : Nat) < cs.length := by
    cases cs with
    | nil => exact absurd rfl hne
    | cons c cs' => simp
  by_cases hv : AndIterator.valid ⟨cs⟩ = true
  · have hv' : cvalid (cs.getD 0 []) = true := hv
    have hal : alignedVals cs := by
      rcases hpost with hal | hbad
      · exact hal
      · rw [hv'] at hbad; cases hbad
    have hfr : cs.getD 0 [] ≠ [] := by simpa [cvalid_iff] using hv'
    have hw0 : WFSeq (cs.getD 0 []) := hw _ (getD_mem hlen [])
    obtain ⟨hchain0, hmem0⟩ :=
      andToList_spec (totalLen cs) cs (le_refl _) hw hne hpost
    -- the family after `children_[0]->skipTo(target)`
    have hcs1len : (cs.set 0 (cskipTo t (cs.getD 0 []))).length = cs.length :=
      List.length_set cs 0 _
    have hcs1get : (cs.set 0 (cskipTo t (cs.getD 0 []))).getD 0 []
        = cskipTo t (cs.getD 0 []) := getD_set_self hlen _ _
    have hw1 : WFFam (cs.set 0 (cskipTo t (cs.getD 0 []))) :=
      WFFam_set hw (WFSeq_cskipTo t hw0) 0
    have hcm1 : ∀ x, commonMem (cs.set 0 (cskipTo t (cs.getD 0 []))) x
        ↔ commonMem cs x ∧ t ≤ x := by
      intro x
      constructor
      · intro h1
        have hx0 : x ∈ cskipTo t (cs.getD 0 []) := by
          have := h1 0 (by omega)
          rwa [hcs1get] at this
        obtain ⟨hx0', hxt⟩ := (mem_cskipTo_iff hw0.1 t x).mp hx0
        refine ⟨?_, hxt⟩
        intro p hp
        by_cases hp0 : p = 0
        · subst hp0
          exact hx0'
        · have := h1 p (by omega)
          rwa [getD_set_ne _ (fun he => hp0 he.symm)] at this
      · rintro ⟨hcm, hxt⟩
        intro p hp
        rw [hcs1len] at hp
        by_cases hp0 : p = 0
        · subst hp0
          rw [hcs1get]
          exact (mem_cskipTo_iff hw0.1 t x).mpr ⟨hcm 0 hlen, hxt⟩
        · rw [getD_set_ne _ (fun he => hp0 he.symm)]
          exact hcm p hp
    by_cases hv1 : cvalid ((cs.set 0 (cskipTo t (cs.getD 0 []))).getD 0 []) = true
    · -- slot 0 still live after the skip: realign
      have hskip : AndIterator.skipTo t ⟨cs⟩
          = (⟨(naGo (cs.set 0 (cskipTo t (cs.getD 0 []))) 1).1⟩,
              (naGo (cs.set 0 (cskipTo t (cs.getD 0 []))) 1).2) := by
        rw [AndIterator.skipTo, if_pos hv]
        simp only [if_pos hv1]
      have hfr1 : cskipTo t (cs.getD 0 []) ≠ [] := by
        rw [hcs1get] at hv1
        simpa [cvalid_iff] using hv1
      have hinv1 : InvNA (cs.set 0 (cskipTo t (cs.getD 0 []))) 1 := by
        refine ⟨le_refl _, by omega, by omega, ?_⟩
        intro p h1p hpl
        rw [hcs1len] at hpl
        rw [hcs1get, getD_set_ne _ (by omega : (0 : Nat) ≠ p), hal p hpl]
        have hhead : cvalue (cskipTo t (cs.getD 0 [])) ∈ cs.getD 0 [] := by
          have hm := cvalue_mem hfr1
          exact ((mem_cskipTo_iff hw0.1 t _).mp hm).1
        exact le_cvalue_of_mem hw0.1 hhead
      obtain ⟨ihw, ihcm, ihal, ihfa⟩ :=
        naGo_spec (cs.set 0 (cskipTo t (cs.getD 0 []))) 1 hw1 hinv1
      have hlen2 : (naGo (cs.set 0 (cskipTo t (cs.getD 0 []))) 1).1.length = cs.length := by
        rw [(naGo_totalLen_le _ _).2, hcs1len]
      have hne2 : (naGo (cs.set 0 (cskipTo t (cs.getD 0 []))) 1).1 ≠ [] := by
        intro he
        rw [he] at hlen2
        simp at hlen2
        omega
      have hpost2 : AndPost (naGo (cs.set 0 (cskipTo t (cs.getD 0 []))) 1).1 := by
        cases hok : (naGo (cs.set 0 (cskipTo t (cs.getD 0 []))) 1).2 with
        | false =>
          right
          rw [ihfa hok]
          rfl
        | true =>
          left
          exact ihal hok
      obtain ⟨hchain2, hmem2⟩ :=
        andToList_spec (totalLen (naGo (cs.set 0 (cskipTo t (cs.getD 0 []))) 1).1)
          _ (le_refl _) ihw hne2 hpost2
      constructor
      · rw [hskip]
        apply sorted_eq_of_mem_iff hchain2
          (List.Chain'.sublist hchain0 (List.dropWhile_sublist _))
        intro x
        rw [hmem2 x, ihcm x, hcm1 x]
        have hd : x ∈ (AndIterator.toList ⟨cs⟩).dropWhile (fun y => y < t)
            ↔ x ∈ AndIterator.toList ⟨cs⟩ ∧ t ≤ x := mem_cskipTo_iff hchain0 t x
        rw [hd, hmem0 x]
      · rw [hskip]
        cases hok : (naGo (cs.set 0 (cskipTo t (cs.getD 0 []))) 1).2 with
        | false =>
          have := ihfa hok
          show false = AndIterator.valid _
          rw [AndIterator.valid]
          show false = cvalid ((naGo (cs.set 0 (cskipTo t (cs.getD 0 []))) 1).1.getD 0 [])
          rw [this]
          rfl
        | true =>
          have := naGo_front_valid (cs.set 0 (cskipTo t (cs.getD 0 []))) 1
            (le_refl _) hok (by rw [hcs1get]; rwa [hcs1get] at hv1)
          show true = AndIterator.valid _
          rw [AndIterator.valid]
          exact this.symm
    · -- slot 0 exhausted by the skip
      have hskip : AndIterator.skipTo t ⟨cs⟩
          = (⟨cs.set 0 (cskipTo t (cs.getD 0 []))⟩, false) := by
        rw [AndIterator.skipTo, if_pos hv]
        simp only [if_neg hv1]
      have hnil : cskipTo t (cs.getD 0 []) = [] := by
        rw [hcs1get] at hv1
        cases hb : cvalid (cskipTo t (cs.getD 0 []))
        · exact (cvalid_false_iff _).mp hb
        · exact absurd hb hv1
      have hall : ∀ x ∈ cs.getD 0 [], x < t := by
        intro x hx
        have := List.dropWhile_eq_nil_iff.mp hnil
        simpa using this x hx
      constructor
      · rw [hskip]
        rw [andIterator_toList_invalid (s := ⟨cs.set 0 (cskipTo t (cs.getD 0 []))⟩) (by
          show cvalid ((cs.set 0 (cskipTo t (cs.getD 0 []))).getD 0 []) = false
          rw [hcs1get, hnil]
          rfl)]
        symm
        rw [List.dropWhile_eq_nil_iff]
        intro x hx
        have hcm := (hmem0 x).mp hx
        have hx0 : x ∈ cs.getD 0 [] := hcm 0 hlen
        simpa using hall x hx0
      · rw [hskip]
        show false = AndIterator.valid _
        rw [AndIterator.valid]
        show false = cvalid ((cs.set 0 (cskipTo t (cs.getD 0 []))).getD 0 [])
        rw [hcs1get, hnil]
        rfl
  · -- already exhausted: no-op returning false
    have hskip : AndIterator.skipTo t ⟨cs⟩ = (⟨cs⟩, false) := by
      rw [AndIterator.skipTo, if_neg hv]
    have hnv : AndIterator.valid ⟨cs⟩ = false := by
      cases hb : AndIterator.valid ⟨cs⟩
      · rfl
      · exact absurd hb hv
    constructor
    · rw [hskip, andIterator_toList_invalid hnv]
      rfl
    · rw [hskip, hnv]

/-- Claim C4: for each cursor kind over strictly ascending sentinel-free
posting lists (the compound ones on their well-formed reachable states),
`skipTo(t)` drops exactly the values below `t` from the observable
sequence — so a `t` not above the current value is a no-op, otherwise the
new value is the least remaining value `≥ t`, or the cursor exhausts — and
the returned flag is the cursor's validity after the call (in particular
`false`, with no movement, on an exhausted cursor). -/
theorem skipTo_contract (t : Nat) :
    (∀ v : VectorIterator,
      VectorIterator.toList ((VectorIterator.skipTo t v).1)
        = (VectorIterator.toList v).dropWhile (fun x => x < t) ∧
      (VectorIterator.skipTo t v).2 = ((VectorIterator.skipTo t v).1).valid) ∧
    (∀ s : AndIterator, WFFam s.children → s.children ≠ [] → AndPost s.children →
      AndIterator.toList ((AndIterator.skipTo t s).1)
        = (AndIterator.toList s).dropWhile (fun x => x < t) ∧
      (AndIterator.skipTo t s).2 = ((AndIterator.skipTo t s).1).valid) ∧
    (∀ s : OrIterator, WFFam s.children → IsMinHeap s.children →
      OrIterator.toList ((OrIterator.skipTo t s).1)
        = (OrIterator.toList s).dropWhile (fun x => x < t) ∧
      (OrIterator.skipTo t s).2 = ((OrIterator.skipTo t s).1).valid) ∧
    (∀ s : DiffIterator, List.Chain' (· < ·) s.lhs → List.Chain' (· < ·) s.rhs →
      DiffAligned s →
      DiffIterator.toList ((DiffIterator.skipTo t s).1)
        = (DiffIterator.toList s).dropWhile (fun x => x < t) ∧
      (DiffIterator.skipTo t s).2 = ((DiffIterator.skipTo t s).1).valid) :=
  ⟨fun v => vector_skipTo_spec t v,
    fun s hw hne hpost => and_skipTo_spec t s hw hne hpost,
    fun s hw hH => or_skipTo_spec t s hw hH,
    fun s hl hr hal => diff_skipTo_spec t s hl hr hal⟩

/-! ### Cursor trees with tags (`iterator.h`)

States of the iterator classes as a tree, for the `value`/`getTags`
sentinel claims and for the tag decoration (`IteratorWithTag`,
`iterator.h` lines 158–179).  `getTags` returns `Option (List String)`:
`none` models the hard `CHECK(valid())` abort of `DiffIterator::getTags`
(`iterator.cc` line 324) and the out-of-bounds `children_[0]` read
reachable in `OrIterator::getTags` via `valueUnsafe()` on an empty
children vector. -/

inductive Cursor where
  | emptyI : Cursor
  | vecI : List Nat → Nat → Cursor
  | andI : List Cursor → Cursor
  | orI : List Cursor → Cursor
  | diffI : Cursor → Cursor → Cursor
  | tagI : String → Cursor → Cursor
deriving Repr

namespace Cursor

/-- `valid()` of each class (`andI []` / `orI []` model the unreachable
empty-children state, on which `AndIterator::valid` would read out of
bounds; the constructors `CHECK` non-emptiness). -/
def valid : Cursor → Bool
  | emptyI => false
  | vecI xs pos => pos < xs.length
  | andI [] => false
  | andI (c :: _) => c.valid
  | orI [] => false
  | orI (c :: _) => c.valid
  | diffI l _ => l.valid
  | tagI _ b => b.valid

/-- `valueUnsafe()` of each class; for the compound cursors this is the
(safe) `value()` of the distinguished child. -/
def valueUnsafe : Cursor → Nat
  | emptyI => kInvalidDocId
  | vecI xs pos => xs.getD pos 0
  | andI [] => kInvalidDocId
  | andI (c :: _) => if c.valid then c.valueUnsafe else kInvalidDocId
  | orI [] => kInvalidDocId
  | orI (c :: _) => if c.valid then c.valueUnsafe else kInvalidDocId
  | diffI l _ => if l.valid then l.valueUnsafe else kInvalidDocId
  | tagI _ b => b.valueUnsafe

/-- Public `value()` from the `Iterator` base class (`iterator.cc` line
56): the sentinel whenever the cursor is invalid. -/
def value (c : Cursor) : Nat :=
  if c.valid then c.valueUnsafe else kInvalidDocId

end Cursor

mutual

/-- `hasTag()`: `IteratorWithTag` always, operators iff some child has a
tag (`childrenHaveTags_`), `DiffIterator` iff its left child has. -/
def Cursor.hasTag : Cursor → Bool
  | .emptyI => false
  | .vecI _ _ => false
  | .andI cs => hasTagL cs
  | .orI cs => hasTagL cs
  | .diffI l _ => Cursor.hasTag l
  | .tagI _ _ => true

def hasTagL : List Cursor → Bool
  | [] => false
  | c :: cs => Cursor.hasTag c || hasTagL cs

end

mutual

/-- `getTags()` of each class. -/
def Cursor.getTags : Cursor → Option (List String)
  | .emptyI => some []
  | .vecI _ _ => some []
  | .andI cs => if hasTagL cs then getTagsL cs else some []
  | .orI cs =>
      if hasTagL cs then
        match cs with
        | [] => none
        | c :: cs' => getTagsOr (c :: cs') 0 (Cursor.value c)
      else some []
  | .diffI l _ => if Cursor.valid l then Cursor.getTags l else none
  | .tagI tg b =>
      if Cursor.hasTag b then (Cursor.getTags b).map (fun ts => ts ++ [tg])
      else some [tg]
termination_by c => (sizeOf c, 0)
decreasing_by
  · apply Prod.Lex.left
    simp
    all_goals omega
  · apply Prod.Lex.left
    simp
    all_goals omega
  · apply Prod.Lex.left
    simp
    all_goals omega
  · apply Prod.Lex.left
    simp
    all_goals omega

/-- Concatenation of the children's tags (`AndIterator::getTags`,
`iterator.cc` lines 175–188). -/
def getTagsL : List Cursor → Option (List String)
  | [] => some []
  | c :: cs => do
      let ts ← Cursor.getTags c
      let rest ← getTagsL cs
      pure (ts ++ rest)
termination_by cs => (sizeOf cs, 0)
decreasing_by
  · apply Prod.Lex.left
    simp
    all_goals omega
  · apply Prod.Lex.left
    simp
    all_goals omega

/-- The recursive heap traversal of `OrIterator::getTags` (`iterator.cc`
lines 258–271). -/
def getTagsOr (cs : List Cursor) (pos : Nat) (cur : Nat) : Option (List String) :=
  if h : pos < cs.length then
    if Cursor.value (cs.getD pos Cursor.emptyI) = cur then do
      let ts ← Cursor.getTags (cs.getD pos Cursor.emptyI)
      let a ← getTagsOr cs (2 * pos + 1) cur
      let b ← getTagsOr cs (2 * pos + 2) cur
      pure (ts ++ a ++ b)
    else some []
  else some []
termination_by (sizeOf cs, cs.length - pos)
decreasing_by
  · apply Prod.Lex.left
    exact List.sizeOf_lt_of_mem (getD_mem h Cursor.emptyI)
  · apply Prod.Lex.right
    omega
  · apply Prod.Lex.right
    omega

end

/-- `makeIterator<Itr>(tag, args...)` (`iterator.h` lines 205–213): an
empty tag produces the plain cursor, a non-empty tag wraps it in
`IteratorWithTag`. -/
def mkIterator (tag : String) (base : Cursor) : Cursor :=
  if tag = "" then base else Cursor.tagI tag base

/-- A cursor without tags anywhere reports no tags (when it reports at
all). -/
theorem getTags_nil_of_not_hasTag (c : Cursor) :
    ∀ ts : List String, Cursor.hasTag c = false →
      Cursor.getTags c = some ts → ts = [] := by
  cases c with
  | emptyI =>
    intro ts _ hg
    rw [Cursor.getTags] at hg
    exact (Option.some_inj.mp hg).symm
  | vecI xs pos =>
    intro ts _ hg
    rw [Cursor.getTags] at hg
    exact (Option.some_inj.mp hg).symm
  | andI cs =>
    intro ts hnt hg
    rw [Cursor.hasTag] at hnt
    rw [Cursor.getTags, hnt] at hg
    simp at hg
    first
    | exact hg
    | exact hg.symm
  | orI cs =>
    intro ts hnt hg
    rw [Cursor.hasTag] at hnt
    cases cs with
    | nil =>
      rw [Cursor.getTags, hnt] at hg
      simp at hg
      first
      | exact hg
      | exact hg.symm
    | cons c cs' =>
      rw [Cursor.getTags, hnt] at hg
      simp at hg
      first
      | exact hg
      | exact hg.symm
  | diffI l r =>
    intro ts hnt hg
    rw [Cursor.hasTag] at hnt
    rw [Cursor.getTags] at hg
    by_cases hv : Cursor.valid l = true
    · rw [if_pos hv] at hg
      exact getTags_nil_of_not_hasTag l ts hnt hg
    · rw [if_neg hv] at hg
      cases hg
  | tagI tg b =>
    intro ts hnt _
    rw [Cursor.hasTag] at hnt
    cases hnt

/-- Claim C9: tag decoration.  An operator cursor constructed with an
empty tag is the undecorated operator; with a non-empty tag it is wrapped
so that `hasTag()` is unconditionally true and `getTags()` appends the
node's own tag after the tags collected below it. -/
theorem tag_decoration :
    (∀ c : Cursor, mkIterator "" c = c) ∧
    (∀ (tg : String) (c : Cursor), tg ≠ "" →
      mkIterator tg c = Cursor.tagI tg c ∧
      Cursor.hasTag (Cursor.tagI tg c) = true ∧
      (∀ ts, Cursor.getTags c = some ts →
        Cursor.getTags (Cursor.tagI tg c) = some (ts ++ [tg]))) := by
  constructor
  · intro c
    rw [mkIterator, if_pos rfl]
  · intro tg c htg
    refine ⟨by rw [mkIterator, if_neg htg], by rw [Cursor.hasTag], ?_⟩
    intro ts hts
    rw [Cursor.getTags]
    by_cases hht : Cursor.hasTag c = true
    · rw [if_pos hht, hts]
      rfl
    · have hht' : Cursor.hasTag c = false := by
        cases hb : Cursor.hasTag c
        · rfl
        · exact absurd hb hht
      rw [if_neg hht]
      have := getTags_nil_of_not_hasTag c ts hht' hts
      subst this
      rfl

/-- A witness for claim C9. -/
theorem tag_decoration_witness :
    ("t" : String) ≠ "" ∧
    Cursor.getTags (Cursor.vecI [1] 0) = some [] ∧
    (mkIterator "t" (Cursor.vecI [1] 0) = Cursor.tagI "t" (Cursor.vecI [1] 0) ∧
      Cursor.hasTag (Cursor.tagI "t" (Cursor.vecI [1] 0)) = true ∧
      Cursor.getTags (Cursor.tagI "t" (Cursor.vecI [1] 0)) = some ([] ++ ["t"])) := by
  refine ⟨by decide, by rw [Cursor.getTags], ?_⟩
  have h := tag_decoration.2 "t" (Cursor.vecI [1] 0) (by decide)
  exact ⟨h.1, h.2.1, h.2.2 [] (by rw [Cursor.getTags])⟩

/-- Claim C5 (amended): `value()` on an invalid cursor returns the
sentinel for every cursor kind, and `getTags()` on an invalid cursor
returns the empty list for the leaf cursors and for AND/OR whose children
carry no tags; but `DiffIterator::getTags` hits `CHECK(valid())` and
aborts (modelled as `none`) on an invalid cursor. -/
theorem value_getTags_on_invalid :
    (∀ c : Cursor, Cursor.valid c = false → Cursor.value c = kInvalidDocId) ∧
    (Cursor.getTags Cursor.emptyI = some []) ∧
    (∀ (xs : List Nat) (pos : Nat), Cursor.getTags (Cursor.vecI xs pos) = some []) ∧
    (∀ cs : List Cursor, hasTagL cs = false →
      Cursor.getTags (Cursor.andI cs) = some []) ∧
    (∀ cs : List Cursor, hasTagL cs = false →
      Cursor.getTags (Cursor.orI cs) = some []) ∧
    (∀ l r : Cursor, Cursor.valid l = false →
      Cursor.getTags (Cursor.diffI l r) = none) := by
  refine ⟨?_, by rw [Cursor.getTags], fun xs pos => by rw [Cursor.getTags],
    ?_, ?_, ?_⟩
  · intro c hc
    rw [Cursor.value, hc]
    simp
  · intro cs hcs
    rw [Cursor.getTags, hcs]
    simp
  · intro cs hcs
    cases cs with
    | nil =>
      rw [Cursor.getTags, hcs]
      simp
    | cons c cs' =>
      rw [Cursor.getTags, hcs]
      simp
  · intro l r hl
    rw [Cursor.getTags, if_neg (by rw [hl]; simp)]

/-- A witness for claim C5's amended statement. -/
theorem value_getTags_on_invalid_witness :
    Cursor.valid (Cursor.vecI [1] 1) = false ∧
    Cursor.value (Cursor.vecI [1] 1) = kInvalidDocId ∧
    hasTagL [Cursor.vecI [1] 1] = false ∧
    Cursor.getTags (Cursor.andI [Cursor.vecI [1] 1]) = some [] ∧
    Cursor.getTags (Cursor.orI [Cursor.vecI [1] 1]) = some [] ∧
    Cursor.getTags (Cursor.diffI (Cursor.vecI [1] 1) Cursor.emptyI) = none := by
  have h1 : Cursor.valid (Cursor.vecI [1] 1) = false := by
    rw [Cursor.valid]
    simp
  have h3 : hasTagL [Cursor.vecI [1] 1] = false := by
    rw [hasTagL, Cursor.hasTag, hasTagL]
    rfl
  exact ⟨h1, value_getTags_on_invalid.1 _ h1, h3,
    value_getTags_on_invalid.2.2.2.1 _ h3,
    value_getTags_on_invalid.2.2.2.2.1 _ h3,
    value_getTags_on_invalid.2.2.2.2.2 _ _ h1⟩

/-- Counterexample to claim C5 as stated: on an invalid cursor,
`DiffIterator::getTags` aborts on its `CHECK(valid())` rather than return
the empty list (first conjunct: the post-construction state of
`DiffIterator(empty, empty)`), and an `AndIterator` whose children carry
tags returns a non-empty tag list while invalid (second conjunct: the
post-construction state of `AndIterator` over a tagged `[1]` and `[2]`).
-/
theorem getTags_on_invalid_counterexample :
    (Cursor.valid (Cursor.diffI Cursor.emptyI Cursor.emptyI) = false ∧
      Cursor.getTags (Cursor.diffI Cursor.emptyI Cursor.emptyI) = none) ∧
    (Cursor.valid (Cursor.andI [Cursor.tagI "t" (Cursor.vecI [1] 1), Cursor.vecI [2] 0]) = false ∧
      Cursor.getTags (Cursor.andI [Cursor.tagI "t" (Cursor.vecI [1] 1), Cursor.vecI [2] 0])
        = some ["t"]) := by
  refine ⟨⟨by rw [Cursor.valid, Cursor.valid], ?_⟩, ⟨?_, ?_⟩⟩
  · rw [Cursor.getTags, if_neg (by rw [Cursor.valid]; simp)]
  · rw [Cursor.valid, Cursor.valid, Cursor.valid]
    simp
  · simp [Cursor.getTags, getTagsL, Cursor.hasTag, hasTagL, Cursor.valid]

/-! ### `VectorIterator` construction (claim C6) -/

/-- Claim C6 (amended): the `VectorIterator` constructors perform no
validation at all — any vector is stored as-is and replayed verbatim
(callers must supply strictly ascending sentinel-free lists); an empty
list yields an exhausted cursor. -/
theorem vectorIterator_construction :
    (∀ xs : List Nat, VectorIterator.mk0 xs = ⟨xs, 0⟩ ∧
      VectorIterator.toList (VectorIterator.mk0 xs) = xs) ∧
    (VectorIterator.mk0 []).valid = false := by
  refine ⟨fun xs => ⟨rfl, ?_⟩, by decide⟩
  rw [VectorIterator.toList_eq_remaining]
  show xs.drop 0 = xs
  exact List.drop_zero xs

/-- Counterexample to claim C6 as stated: construction from the
non-ascending list `[3, 1]` is not rejected — it yields a live cursor
that replays `[3, 1]` — and a list containing the sentinel is accepted,
yielding a live cursor whose `value()` is `kInvalidDocId`. -/
theorem vectorIterator_construction_counterexample :
    (VectorIterator.mk0 [3, 1]).valid = true ∧
    VectorIterator.toList (VectorIterator.mk0 [3, 1]) = [3, 1] ∧
    ¬ List.Chain' (· < ·) [3, 1] ∧
    (VectorIterator.mk0 [kInvalidDocId]).valid = true ∧
    (VectorIterator.mk0 [kInvalidDocId]).value = kInvalidDocId := by
  refine ⟨by decide, ?_, by simp [List.chain'_cons], ?_, ?_⟩
  · rw [VectorIterator.toList_eq_remaining]
    rfl
  · rw [VectorIterator.valid]
    decide
  · rw [VectorIterator.value, if_pos (by rw [VectorIterator.valid]; decide)]
    rfl

/-! ### `QueryParser` (`query_parser.cc`)

Token-level embedding of `QueryParser::getIterator`.  The tokenizer
`split` (lines 40–67) skips whitespace, emits `(` and `)` as
single-character tokens, and otherwise emits maximal runs of
non-whitespace non-parenthesis characters.  Error positions and message
texts are not modelled, only the failure kind raised at each
`logAndThrow` call site. -/

/-- `isspace` on the characters the queries may contain. -/
def isSpaceChar (c : Char) : Bool :=
  c = ' ' || c = '\t' || c = '\n' || c = '\x0b' || c = '\x0c' || c = '\r'

def isParenChar (c : Char) : Bool := c = '(' || c = ')'

/-- The tokenizer, processing the query character by character: spaces
separate tokens, parentheses are single-character tokens, anything else
extends the current (maximal) run.  `acc` is the current run, reversed. -/
def splitAux : List Char → List Char → List String
  | acc, [] => if acc.isEmpty then [] else [String.mk acc.reverse]
  | acc, c :: rest =>
    if isSpaceChar c then
      if acc.isEmpty then splitAux [] rest
      else String.mk acc.reverse :: splitAux [] rest
    else if isParenChar c then
      if acc.isEmpty then String.mk [c] :: splitAux [] rest
      else String.mk acc.reverse :: String.mk [c] :: splitAux [] rest
    else splitAux (c :: acc) rest

def splitQ (q : String) : List String := splitAux [] q.toList

/-- The failure kinds of the parser, one per `logAndThrow` call site. -/
inductive ParseErr where
  | emptyBody      -- "An operator doesn't have any sub-expression."
  | missingOp      -- "Expecting an operator after a left parenthesis '('."
  | unknownOp      -- "Unrecognizable operator after a left parenthesis '('."
  | unmatchedLeft  -- "Unmatched left parenthesis '('."
  | unmatchedRight -- "Unmatched right parenthesis ')'."
  | diffArity      -- "The diff operator requires exactly 2 sub-expressions."
  | dupTag         -- "Multiple tags for one operator."
  | tagOnRoot      -- "The top level can't have a tag."
  | multipleTop    -- "There are multiple queries."
deriving Repr, DecidableEq

inductive POp where
  | and | or | diff | root
deriving Repr, DecidableEq

/-- `PartialState` (`query_parser.cc` lines 127–132), without the error
position field. -/
structure PartialState where
  op : POp
  itrs : List Cursor
  tag : String

/-- `PartialState::close` (`query_parser.cc` lines 133–174). -/
def closePS (ps : PartialState) : Except ParseErr Cursor :=
  if ps.itrs.isEmpty then .error .emptyBody
  else
    match ps.op with
    | .diff =>
      if ps.itrs.length ≠ 2 then .error .diffArity
      else .ok (mkIterator ps.tag
        (Cursor.diffI (ps.itrs.getD 0 Cursor.emptyI) (ps.itrs.getD 1 Cursor.emptyI)))
    | .and =>
      if ps.itrs.length = 1 ∧ ps.tag = "" then .ok (ps.itrs.headD Cursor.emptyI)
      else .ok (mkIterator ps.tag (Cursor.andI ps.itrs))
    | .or =>
      if ps.itrs.length = 1 ∧ ps.tag = "" then .ok (ps.itrs.headD Cursor.emptyI)
      else .ok (mkIterator ps.tag (Cursor.orI ps.itrs))
    | .root =>
      if ps.itrs.length ≠ 1 then .error .multipleTop
      else if ps.tag ≠ "" then .error .tagOnRoot
      else .ok (ps.itrs.headD Cursor.emptyI)

/-- `token.starts_with(kTagPrefix)`. -/
def startsWithTagPrefix (tok : String) : Bool :=
  decide (tok.toList.take 4 = "tag:".toList)

/-- `token.remove_prefix(kTagPrefix.size())`. -/
def tagName (tok : String) : String := String.mk (tok.toList.drop 4)

/-- The token loop of `QueryParser::getIterator` (lines 219–256).  The
stack of partial states is kept as its non-empty decomposition
`(top, stack)`; the bottom frame is the ROOT frame. -/
def parseGo (f : String → Cursor) (top : PartialState) (stack : List PartialState) :
    List String → Except ParseErr Cursor
  | [] =>
    -- end of input: `stack.size() > 1` means an unmatched '('
    if stack.isEmpty then closePS top else .error .unmatchedLeft
  | tok :: rest =>
    if tok = "(" then
      -- consume the next token, which must be an operator keyword
      match rest with
      | [] => .error .missingOp
      | op :: rest' =>
        if op = "and" then parseGo f ⟨.and, [], ""⟩ (top :: stack) rest'
        else if op = "or" then parseGo f ⟨.or, [], ""⟩ (top :: stack) rest'
        else if op = "diff" then parseGo f ⟨.diff, [], ""⟩ (top :: stack) rest'
        else .error .unknownOp
    else if tok = ")" then
      if top.op = POp.root then .error .unmatchedRight
      else
        match closePS top with
        | .error e => .error e
        | .ok itr =>
          match stack with
          | [] => .error .unmatchedRight -- unreachable: the ROOT frame is at the bottom
          | t2 :: s2 => parseGo f ⟨t2.op, t2.itrs ++ [itr], t2.tag⟩ s2 rest
    else if startsWithTagPrefix tok then
      if top.tag ≠ "" then .error .dupTag
      else if top.op = POp.root then .error .tagOnRoot
      else parseGo f ⟨top.op, top.itrs, tagName tok⟩ stack rest
    else
      -- a term: ask the factory
      parseGo f ⟨top.op, top.itrs ++ [f tok], top.tag⟩ stack rest

def parseTokens (f : String → Cursor) (tokens : List String) : Except ParseErr Cursor :=
  parseGo f ⟨.root, [], ""⟩ [] tokens

/-- `QueryParser::getIterator`. -/
def parseQ (f : String → Cursor) (q : String) : Except ParseErr Cursor :=
  parseTokens f (splitQ q)

/-- One step of the token loop, written out flat (the nested matches of
`parseGo` exposed for rewriting). -/
theorem parseGo_cons (f : String → Cursor) (top : PartialState)
    (stack : List PartialState) (tok : String) (rest : List String) :
    parseGo f top stack (tok :: rest) =
      (if tok = "(" then
        match rest with
        | [] => .error .missingOp
        | op :: rest' =>
          if op = "and" then parseGo f ⟨.and, [], ""⟩ (top :: stack) rest'
          else if op = "or" then parseGo f ⟨.or, [], ""⟩ (top :: stack) rest'
          else if op = "diff" then parseGo f ⟨.diff, [], ""⟩ (top :: stack) rest'
          else .error .unknownOp
      else if tok = ")" then
        if top.op = POp.root then .error .unmatchedRight
        else
          match closePS top with
          | .error e => .error e
          | .ok itr =>
            match stack with
            | [] => .error .unmatchedRight
            | t2 :: s2 => parseGo f ⟨t2.op, t2.itrs ++ [itr], t2.tag⟩ s2 rest
      else if startsWithTagPrefix tok then
        if top.tag ≠ "" then .error .dupTag
        else if top.op = POp.root then .error .tagOnRoot
        else parseGo f ⟨top.op, top.itrs, tagName tok⟩ stack rest
      else parseGo f ⟨top.op, top.itrs ++ [f tok], top.tag⟩ stack rest) := by
  rw [parseGo.eq_def]

/-- A term token: anything that is not a parenthesis and does not start
with the tag prefix (keywords are reserved only right after `(`). -/
def isTermTok (s : String) : Prop :=
  s ≠ "(" ∧ s ≠ ")" ∧ startsWithTagPrefix s = false

theorem parseGo_term (f : String → Cursor) (top : PartialState)
    (stack : List PartialState) (t : String) (rest : List String)
    (ht : isTermTok t) :
    parseGo f top stack (t :: rest)
      = parseGo f ⟨top.op, top.itrs ++ [f t], top.tag⟩ stack rest := by
  rw [parseGo_cons, if_neg ht.1, if_neg ht.2.1, if_neg (by rw [ht.2.2]; simp)]

/-- The grammar of §4.7, at token level: a query AST whose rendering the
parser must accept.  `POp.root` never appears in an AST node. -/
inductive QAst where
  | term : String → QAst
  | node : POp → Option String → List QAst → QAst

def opTok : POp → String
  | .and => "and"
  | .or => "or"
  | .diff => "diff"
  | .root => ""

mutual

def qTokens : QAst → List String
  | .term s => [s]
  | .node op tag cs =>
    "(" :: opTok op ::
      ((tag.map (fun t => ["tag:" ++ t])).getD []
        ++ qTokensL cs ++ [")"])
termination_by q => sizeOf q

def qTokensL : List QAst → List String
  | [] => []
  | q :: qs => qTokens q ++ qTokensL qs
termination_by l => sizeOf l

end

def QWF : QAst → Prop
  | .term s => isTermTok s
  | .node op _ cs =>
    op ≠ POp.root ∧ cs ≠ [] ∧ (op = POp.diff → cs.length = 2) ∧
    ∀ c ∈ cs, QWF c

theorem tagTok_ne_lparen (t : String) : ("tag:" ++ t) ≠ "(" := by
  intro he
  have hd := congrArg String.data he
  rw [String.data_append] at hd
  have hlen := congrArg List.length hd
  rw [List.length_append] at hlen
  have h4 : ("tag:".data).length = 4 := by decide
  have h1 : ("(".data).length = 1 := by decide
  omega

theorem tagTok_ne_rparen (t : String) : ("tag:" ++ t) ≠ ")" := by
  intro he
  have hd := congrArg String.data he
  rw [String.data_append] at hd
  have hlen := congrArg List.length hd
  rw [List.length_append] at hlen
  have h4 : ("tag:".data).length = 4 := by decide
  have h1 : (")".data).length = 1 := by decide
  omega

theorem startsWithTagPrefix_tagTok (t : String) :
    startsWithTagPrefix ("tag:" ++ t) = true := by
  rw [startsWithTagPrefix, decide_eq_true_eq]
  show (("tag:" ++ t).data).take 4 = "tag:".data
  rw [String.data_append]
  have h4 : ("tag:".data).length = 4 := by decide
  rw [← h4, List.take_left]

theorem tagName_tagTok (t : String) : tagName ("tag:" ++ t) = t := by
  rw [tagName]
  show String.mk ((("tag:" ++ t).data).drop 4) = t
  rw [String.data_append]
  have h4 : ("tag:".data).length = 4 := by decide
  rw [← h4, List.drop_left]

/-- Consuming `(` followed by the `and` keyword pushes an AND frame. -/
theorem parseGo_openAnd (f : String → Cursor) (top : PartialState)
    (stack : List PartialState) (L : List String) :
    parseGo f top stack ("(" :: "and" :: L)
      = parseGo f ⟨POp.and, [], ""⟩ (top :: stack) L := rfl

theorem parseGo_openOr (f : String → Cursor) (top : PartialState)
    (stack : List PartialState) (L : List String) :
    parseGo f top stack ("(" :: "or" :: L)
      = parseGo f ⟨POp.or, [], ""⟩ (top :: stack) L := rfl

theorem parseGo_openDiff (f : String → Cursor) (top : PartialState)
    (stack : List PartialState) (L : List String) :
    parseGo f top stack ("(" :: "diff" :: L)
      = parseGo f ⟨POp.diff, [], ""⟩ (top :: stack) L := rfl

/-- A `tag:`-prefixed token on a frame without a tag sets the frame's tag. -/
theorem parseGo_tagTok (f : String → Cursor) (op : POp) (hop : op ≠ POp.root)
    (itrs : List Cursor) (t : String) (stack : List PartialState)
    (rest : List String) :
    parseGo f ⟨op, itrs, ""⟩ stack (("tag:" ++ t) :: rest)
      = parseGo f ⟨op, itrs, t⟩ stack rest := by
  rw [parseGo_cons, if_neg (tagTok_ne_lparen t), if_neg (tagTok_ne_rparen t),
    if_pos (startsWithTagPrefix_tagTok t), if_neg (fun hne => hne rfl),
    if_neg hop, tagName_tagTok]

/-- Closing a non-root frame whose `close` succeeds pushes the produced
cursor onto the frame below. -/
theorem parseGo_closeStep (f : String → Cursor) (op : POp)
    (hop : op ≠ POp.root) (itrs : List Cursor) (tg : String) (c : Cursor)
    (hc : closePS ⟨op, itrs, tg⟩ = .ok c) (t2 : PartialState)
    (s2 : List PartialState) (rest : List String) :
    parseGo f ⟨op, itrs, tg⟩ (t2 :: s2) (")" :: rest)
      = parseGo f ⟨t2.op, t2.itrs ++ [c], t2.tag⟩ s2 rest := by
  rw [parseGo_cons, if_neg (by decide : ¬ ((")" : String) = "(")), if_pos rfl,
    if_neg hop, hc]

/-- Closing a non-root frame whose `close` fails raises that failure. -/
theorem parseGo_closeErr (f : String → Cursor) (op : POp)
    (hop : op ≠ POp.root) (itrs : List Cursor) (tg : String) (e : ParseErr)
    (he : closePS ⟨op, itrs, tg⟩ = .error e) (stack : List PartialState)
    (rest : List String) :
    parseGo f ⟨op, itrs, tg⟩ stack (")" :: rest) = .error e := by
  rw [parseGo_cons, if_neg (by decide : ¬ ((")" : String) = "(")), if_pos rfl,
    if_neg hop, he]

/-- `closePS` on a non-root frame, written out flat (the `match` on the
operator reduced away). -/
theorem closePS_and_eq (itrs : List Cursor) (tg : String) :
    closePS ⟨POp.and, itrs, tg⟩
      = if itrs.isEmpty then .error .emptyBody
        else if itrs.length = 1 ∧ tg = "" then .ok (itrs.headD Cursor.emptyI)
        else .ok (mkIterator tg (Cursor.andI itrs)) := rfl

theorem closePS_or_eq (itrs : List Cursor) (tg : String) :
    closePS ⟨POp.or, itrs, tg⟩
      = if itrs.isEmpty then .error .emptyBody
        else if itrs.length = 1 ∧ tg = "" then .ok (itrs.headD Cursor.emptyI)
        else .ok (mkIterator tg (Cursor.orI itrs)) := rfl

theorem closePS_diff_eq (itrs : List Cursor) (tg : String) :
    closePS ⟨POp.diff, itrs, tg⟩
      = if itrs.isEmpty then .error .emptyBody
        else if itrs.length ≠ 2 then .error .diffArity
        else .ok (mkIterator tg
          (Cursor.diffI (itrs.getD 0 Cursor.emptyI) (itrs.getD 1 Cursor.emptyI))) := rfl

/-- A nonempty frame with an `and`/`or`/`diff`-of-arity-2 operator always
closes successfully. -/
theorem closePS_ok (op : POp) (hnr : op ≠ POp.root) (ics : List Cursor)
    (hicsne : ics ≠ []) (hlen2 : op = POp.diff → ics.length = 2)
    (tg : String) : ∃ c : Cursor, closePS ⟨op, ics, tg⟩ = .ok c := by
  have hemp : ics.isEmpty = false := by
    cases ics with
    | nil => exact absurd rfl hicsne
    | cons a l => rfl
  cases op with
  | root => exact absurd rfl hnr
  | diff =>
    obtain ⟨a, b, rfl⟩ := List.length_eq_two.mp (hlen2 rfl)
    exact ⟨_, rfl⟩
  | and =>
    rw [closePS_and_eq, if_neg (by simp [hemp])]
    by_cases hcol : ics.length = 1 ∧ tg = ""
    · exact ⟨_, by rw [if_pos hcol]⟩
    · exact ⟨_, by rw [if_neg hcol]⟩
  | or =>
    rw [closePS_or_eq, if_neg (by simp [hemp])]
    by_cases hcol : ics.length = 1 ∧ tg = ""
    · exact ⟨_, by rw [if_pos hcol]⟩
    · exact ⟨_, by rw [if_neg hcol]⟩

/-- Processing the concatenated renderings of a list of productions, each
of which pushes one cursor, pushes the corresponding list of cursors. -/
theorem parseGo_pushList (f : String → Cursor) (l : List QAst)
    (h : ∀ q ∈ l, ∃ c : Cursor, ∀ (top : PartialState)
      (stack : List PartialState) (rest : List String),
      parseGo f top stack (qTokens q ++ rest)
        = parseGo f ⟨top.op, top.itrs ++ [c], top.tag⟩ stack rest) :
    ∃ ics : List Cursor, ics.length = l.length ∧
      ∀ (st : PartialState) (stack : List PartialState) (rest : List String),
        parseGo f st stack (qTokensL l ++ rest)
          = parseGo f ⟨st.op, st.itrs ++ ics, st.tag⟩ stack rest := by
  induction l with
  | nil =>
    refine ⟨[], rfl, fun st stack rest => ?_⟩
    rw [qTokensL]
    simp
  | cons q' l' ih =>
    obtain ⟨c, hc⟩ := h q' (List.mem_cons_self _ _)
    obtain ⟨ics', hlen', hics'⟩ := ih (fun q hq => h q (List.mem_cons_of_mem _ hq))
    refine ⟨c :: ics', by simp [hlen'], fun st stack rest => ?_⟩
    rw [qTokensL, List.append_assoc, hc st stack _,
      hics' ⟨st.op, st.itrs ++ [c], st.tag⟩ stack rest]
    simp

/-- Processing the rendering of one well-formed grammar production pushes
exactly one cursor onto the enclosing frame and raises no failure. -/
theorem parseGo_push (f : String → Cursor) (q : QAst) (hwf : QWF q) :
    ∃ c : Cursor, ∀ (top : PartialState) (stack : List PartialState)
      (rest : List String),
      parseGo f top stack (qTokens q ++ rest)
        = parseGo f ⟨top.op, top.itrs ++ [c], top.tag⟩ stack rest := by
  match q with
  | .term s =>
    rw [QWF] at hwf
    refine ⟨f s, fun top stack rest => ?_⟩
    rw [qTokens]
    exact parseGo_term f top stack s rest hwf
  | .node op tag cs =>
    rw [QWF] at hwf
    obtain ⟨hnr, hne, hdiff, hcs⟩ := hwf
    obtain ⟨ics, hicslen, hics⟩ :=
      parseGo_pushList f cs (fun q' hq' => parseGo_push f q' (hcs q' hq'))
    have hicsne : ics ≠ [] := by
      intro he
      rw [he] at hicslen
      exact hne (List.length_eq_zero.mp hicslen.symm)
    have hlen2 : op = POp.diff → ics.length = 2 :=
      fun hd => hicslen.trans (hdiff hd)
    have hopen : ∀ (top : PartialState) (stack : List PartialState)
        (L : List String), parseGo f top stack ("(" :: opTok op :: L)
          = parseGo f ⟨op, [], ""⟩ (top :: stack) L := by
      cases op with
      | root => exact absurd rfl hnr
      | and => exact parseGo_openAnd f
      | or => exact parseGo_openOr f
      | diff => exact parseGo_openDiff f
    cases tag with
    | none =>
      obtain ⟨c, hc⟩ := closePS_ok op hnr ics hicsne hlen2 ""
      refine ⟨c, fun top stack rest => ?_⟩
      rw [qTokens]
      simp only [Option.map_none', Option.getD_none, List.nil_append,
        List.cons_append, List.append_assoc, List.singleton_append]
      rw [hopen, hics ⟨op, [], ""⟩ (top :: stack) (")" :: rest)]
      exact parseGo_closeStep f op hnr ([] ++ ics) "" c hc top stack rest
    | some t =>
      obtain ⟨c, hc⟩ := closePS_ok op hnr ics hicsne hlen2 t
      refine ⟨c, fun top stack rest => ?_⟩
      rw [qTokens]
      simp only [Option.map_some', Option.getD_some, List.nil_append,
        List.cons_append, List.append_assoc, List.singleton_append]
      rw [hopen, parseGo_tagTok f op hnr [] t (top :: stack) _,
        hics ⟨op, [], t⟩ (top :: stack) (")" :: rest)]
      exact parseGo_closeStep f op hnr ([] ++ ics) t c hc top stack rest
termination_by sizeOf q
decreasing_by
  have h := List.sizeOf_lt_of_mem hq'
  simp only [QAst.node.sizeOf_spec]
  omega

/-- Claim C7: the parser fails exactly on grammar violations.  The three
failure examples of the spec evaluate to the matching failure kinds; a
DIFF frame rendering with a nonzero child count other than 2 fails with
the arity error for every factory, tag, and list of well-formed children;
and every query generated by the grammar parses without any failure. -/
theorem parse_failure_taxonomy :
    (∀ f : String → Cursor, parseQ f "(diff t:a)" = .error ParseErr.diffArity) ∧
    (∀ f : String → Cursor,
      parseQ f "(and t:a (or t:b)" = .error ParseErr.unmatchedLeft) ∧
    (∀ f : String → Cursor, parseQ f "   " = .error ParseErr.emptyBody) ∧
    (∀ (f : String → Cursor) (tag : Option String) (cs : List QAst),
      cs ≠ [] → cs.length ≠ 2 → (∀ c ∈ cs, QWF c) →
      parseTokens f (qTokens (QAst.node POp.diff tag cs))
        = .error ParseErr.diffArity) ∧
    (∀ (f : String → Cursor) (q : QAst), QWF q →
      ∃ c : Cursor, parseTokens f (qTokens q) = .ok c) := by
  refine ⟨fun f => rfl, fun f => rfl, fun f => rfl, ?_, ?_⟩
  · intro f tag cs hne hlen hwf
    obtain ⟨ics, hicslen, hics⟩ :=
      parseGo_pushList f cs (fun q hq => parseGo_push f q (hwf q hq))
    have hicsne : ics ≠ [] := by
      intro he
      rw [he] at hicslen
      exact hne (List.length_eq_zero.mp hicslen.symm)
    have hemp : ics.isEmpty = false := by
      cases ics with
      | nil => exact absurd rfl hicsne
      | cons a l => rfl
    have hcerr : ∀ tg : String,
        closePS ⟨POp.diff, ics, tg⟩ = .error .diffArity := by
      intro tg
      rw [closePS_diff_eq, if_neg (by simp [hemp]),
        if_pos (by rw [hicslen]; exact hlen)]
    rw [parseTokens, qTokens]
    cases tag with
    | none =>
      simp only [Option.map_none', Option.getD_none, List.nil_append, opTok]
      rw [parseGo_openDiff, hics ⟨POp.diff, [], ""⟩ [⟨POp.root, [], ""⟩] [")"]]
      exact parseGo_closeErr f POp.diff (by decide) ([] ++ ics) ""
        ParseErr.diffArity (hcerr "") [⟨POp.root, [], ""⟩] []
    | some t =>
      simp only [Option.map_some', Option.getD_some, List.append_assoc,
        List.cons_append, List.nil_append, List.singleton_append, opTok]
      rw [parseGo_openDiff, parseGo_tagTok f POp.diff (by decide) [] t _ _,
        hics ⟨POp.diff, [], t⟩ [⟨POp.root, [], ""⟩] [")"]]
      exact parseGo_closeErr f POp.diff (by decide) ([] ++ ics) t
        ParseErr.diffArity (hcerr t) [⟨POp.root, [], ""⟩] []
  · intro f q hq
    obtain ⟨c, hc⟩ := parseGo_push f q hq
    refine ⟨c, ?_⟩
    have h := hc ⟨POp.root, [], ""⟩ [] []
    rw [List.append_nil] at h
    rw [parseTokens, h]
    rfl

theorem parse_failure_taxonomy_witness :
    ([QAst.term "a"] : List QAst) ≠ [] ∧
    ([QAst.term "a"] : List QAst).length ≠ 2 ∧
    parseTokens (fun _ => Cursor.emptyI)
      (qTokens (QAst.node POp.diff none [QAst.term "a"]))
      = .error ParseErr.diffArity ∧
    (∃ c : Cursor, parseTokens (fun _ => Cursor.emptyI)
      (qTokens (QAst.term "a")) = .ok c) := by
  have hwf : ∀ c ∈ [QAst.term "a"], QWF c := by
    intro c hc
    simp only [List.mem_singleton] at hc
    subst hc
    rw [QWF]
    exact ⟨by decide, by decide, by decide⟩
  refine ⟨by simp, by simp, ?_, ?_⟩
  · exact parse_failure_taxonomy.2.2.2.1 _ none _ (by simp) (by simp) hwf
  · refine parse_failure_taxonomy.2.2.2.2 _ (QAst.term "a") ?_
    rw [QWF]
    exact ⟨by decide, by decide, by decide⟩

/-- The rendering of a nest of single-child operator frames around one
term: `nestToks [op1, op2] t` is `( op1 ( op2 t ) )`. -/
def nestToks : List POp → String → List String
  | [], t => [t]
  | op :: ops, t => "(" :: opTok op :: (nestToks ops t ++ [")"])

/-- Claim C8: an AND or OR frame closed with exactly one child cursor and
no tag yields that very cursor (hence the same observable behavior), and
consequently any nest of single-child untagged AND/OR wrappers around a
term parses to exactly the term's own cursor. -/
theorem single_child_collapse :
    (∀ x : Cursor, closePS ⟨POp.and, [x], ""⟩ = .ok x) ∧
    (∀ x : Cursor, closePS ⟨POp.or, [x], ""⟩ = .ok x) ∧
    (∀ (f : String → Cursor) (t : String) (ops : List POp),
      (∀ o ∈ ops, o = POp.and ∨ o = POp.or) → isTermTok t →
      parseTokens f (nestToks ops t) = .ok (f t)) := by
  refine ⟨fun x => rfl, fun x => rfl, ?_⟩
  intro f t ops hops ht
  have main : ∀ ops : List POp, (∀ o ∈ ops, o = POp.and ∨ o = POp.or) →
      ∀ (top : PartialState) (stack : List PartialState) (rest : List String),
      parseGo f top stack (nestToks ops t ++ rest)
        = parseGo f ⟨top.op, top.itrs ++ [f t], top.tag⟩ stack rest := by
    intro ops
    induction ops with
    | nil =>
      intro _ top stack rest
      rw [nestToks, List.singleton_append]
      exact parseGo_term f top stack t rest ht
    | cons op ops' ih =>
      intro hops' top stack rest
      have ihh := ih (fun o ho => hops' o (List.mem_cons_of_mem _ ho))
      have hcolAnd : closePS ⟨POp.and, [] ++ [f t], ""⟩ = Except.ok (f t) := rfl
      have hcolOr : closePS ⟨POp.or, [] ++ [f t], ""⟩ = Except.ok (f t) := rfl
      rw [nestToks]
      rcases hops' op (List.mem_cons_self _ _) with rfl | rfl
      · simp only [opTok, List.cons_append, List.append_assoc,
          List.nil_append, List.singleton_append]
        rw [parseGo_openAnd, ihh ⟨POp.and, [], ""⟩ (top :: stack) (")" :: rest)]
        exact parseGo_closeStep f POp.and (by decide) ([] ++ [f t]) "" (f t)
          hcolAnd top stack rest
      · simp only [opTok, List.cons_append, List.append_assoc,
          List.nil_append, List.singleton_append]
        rw [parseGo_openOr, ihh ⟨POp.or, [], ""⟩ (top :: stack) (")" :: rest)]
        exact parseGo_closeStep f POp.or (by decide) ([] ++ [f t]) "" (f t)
          hcolOr top stack rest
  have h := main ops hops ⟨POp.root, [], ""⟩ [] []
  rw [List.append_nil] at h
  rw [parseTokens, h]
  rfl

theorem single_child_collapse_witness :
    (∀ o ∈ [POp.and, POp.or], o = POp.and ∨ o = POp.or) ∧
    isTermTok "x" ∧
    parseTokens (fun _ => Cursor.emptyI) (nestToks [POp.and, POp.or] "x")
      = .ok Cursor.emptyI := by
  have h1 : ∀ o ∈ [POp.and, POp.or], o = POp.and ∨ o = POp.or := by decide
  have h2 : isTermTok "x" := ⟨by decide, by decide, by decide⟩
  exact ⟨h1, h2,
    single_child_collapse.2.2 (fun _ => Cursor.emptyI) "x" [POp.and, POp.or] h1 h2⟩

/-- Claim C10: a bare `tag:` token (empty tag name) inside a non-root
frame whose tag is empty is a no-op — the frame's tag stays empty, so no
duplicate-tag failure can arise from repeating it — and an AND frame
holding only bare `tag:` tokens and one term still collapses to the
term's own cursor. -/
theorem bare_tag_token :
    (∀ (f : String → Cursor) (op : POp), op ≠ POp.root →
      ∀ (itrs : List Cursor) (stack : List PartialState) (rest : List String),
      parseGo f ⟨op, itrs, ""⟩ stack ("tag:" :: rest)
        = parseGo f ⟨op, itrs, ""⟩ stack rest) ∧
    (∀ (f : String → Cursor) (t : String) (n : Nat), isTermTok t →
      parseTokens f ("(" :: "and" :: (List.replicate n "tag:" ++ [t, ")"]))
        = .ok (f t)) := by
  have hstep : ∀ (f : String → Cursor) (op : POp), op ≠ POp.root →
      ∀ (itrs : List Cursor) (stack : List PartialState) (rest : List String),
      parseGo f ⟨op, itrs, ""⟩ stack ("tag:" :: rest)
        = parseGo f ⟨op, itrs, ""⟩ stack rest := by
    intro f op hop itrs stack rest
    rw [parseGo_cons, if_neg (by decide : ¬ (("tag:" : String) = "(")),
      if_neg (by decide : ¬ (("tag:" : String) = ")")),
      if_pos (by decide : startsWithTagPrefix "tag:" = true),
      if_neg (fun hne => hne rfl), if_neg hop,
      show tagName "tag:" = "" from rfl]
  refine ⟨hstep, ?_⟩
  intro f t n ht
  have main : ∀ (m : Nat) (rest : List String),
      parseGo f ⟨POp.and, [], ""⟩ [⟨POp.root, [], ""⟩]
          (List.replicate m "tag:" ++ rest)
        = parseGo f ⟨POp.and, [], ""⟩ [⟨POp.root, [], ""⟩] rest := by
    intro m
    induction m with
    | zero => intro rest; rw [List.replicate_zero, List.nil_append]
    | succ k ih =>
      intro rest
      rw [List.replicate_succ, List.cons_append,
        hstep f POp.and (by decide), ih]
  rw [parseTokens, parseGo_openAnd, main n [t, ")"],
    parseGo_term f ⟨POp.and, [], ""⟩ [⟨POp.root, [], ""⟩] t [")"] ht]
  have hcol : closePS ⟨POp.and, [] ++ [f t], ""⟩ = Except.ok (f t) := rfl
  have hcs := parseGo_closeStep f POp.and (by decide) ([] ++ [f t]) "" (f t)
    hcol ⟨POp.root, [], ""⟩ [] []
  exact hcs.trans rfl

theorem bare_tag_token_witness :
    POp.and ≠ POp.root ∧ isTermTok "x" ∧
    parseGo (fun _ => Cursor.emptyI) ⟨POp.and, [], ""⟩ [] ["tag:"]
      = parseGo (fun _ => Cursor.emptyI) ⟨POp.and, [], ""⟩ [] [] ∧
    parseTokens (fun _ => Cursor.emptyI)
      ("(" :: "and" :: (List.replicate 2 "tag:" ++ ["x", ")"]))
      = .ok Cursor.emptyI := by
  have h1 : POp.and ≠ POp.root := by decide
  have h2 : isTermTok "x" := ⟨by decide, by decide, by decide⟩
  exact ⟨h1, h2, bare_tag_token.1 _ POp.and h1 [] [] [],
    bare_tag_token.2 _ "x" 2 h2⟩

/-! ### Witnesses for the cursor-layer claims -/

theorem andIterator_emits_intersection_witness :
    ([[1, 2], [2, 3]] : List (List Nat)) ≠ [] ∧
    (∀ x, x ∈ AndIterator.toList (mkAndIterator [[1, 2], [2, 3]]) ↔
      ∀ c ∈ ([[1, 2], [2, 3]] : List (List Nat)), x ∈ c) := by
  have hw : ∀ c ∈ ([[1, 2], [2, 3]] : List (List Nat)),
      List.Chain' (· < ·) c ∧ ∀ x ∈ c, x < kInvalidDocId := by
    intro c hc
    simp only [List.mem_cons, List.not_mem_nil, or_false] at hc
    rcases hc with rfl | rfl
    · exact ⟨by simp [List.chain'_cons], by decide⟩
    · exact ⟨by simp [List.chain'_cons], by decide⟩
  exact ⟨by simp,
    (andIterator_emits_intersection [[1, 2], [2, 3]] (by simp) hw).2.2⟩

theorem orIterator_emits_union_witness :
    ([[1, 3], [2]] : List (List Nat)) ≠ [] ∧
    (∀ x, x ∈ OrIterator.toList (mkOrIterator [[1, 3], [2]]) ↔
      ∃ c ∈ ([[1, 3], [2]] : List (List Nat)), x ∈ c) := by
  have hw : ∀ c ∈ ([[1, 3], [2]] : List (List Nat)),
      List.Chain' (· < ·) c ∧ ∀ x ∈ c, x < kInvalidDocId := by
    intro c hc
    simp only [List.mem_cons, List.not_mem_nil, or_false] at hc
    rcases hc with rfl | rfl
    · exact ⟨by simp [List.chain'_cons], by decide⟩
    · exact ⟨by simp [List.chain'_cons], by decide⟩
  exact ⟨by simp, (orIterator_emits_union [[1, 3], [2]] (by simp) hw).2⟩

theorem diffIterator_emits_difference_witness :
    List.Chain' (· < ·) [1, 2, 3] ∧ List.Chain' (· < ·) [2] ∧
    DiffIterator.toList (mkDiffIterator [1, 2, 3] [2])
      = [1, 2, 3].filter (fun x => decide (x ∉ [2])) :=
  ⟨by simp [List.chain'_cons], by simp,
    (diffIterator_emits_difference [1, 2, 3] [2]
      (by simp [List.chain'_cons]) (by simp)).1⟩

theorem skipTo_contract_witness :
    (VectorIterator.toList ((VectorIterator.skipTo 2 (VectorIterator.mk0 [1, 2, 3])).1)
      = (VectorIterator.toList (VectorIterator.mk0 [1, 2, 3])).dropWhile
          (fun x => x < 2)) ∧
    (WFFam [[2, 3], [2]] ∧ AndPost [[2, 3], [2]] ∧
      AndIterator.toList ((AndIterator.skipTo 3 ⟨[[2, 3], [2]]⟩).1)
        = (AndIterator.toList (⟨[[2, 3], [2]]⟩ : AndIterator)).dropWhile
            (fun x => x < 3)) ∧
    (IsMinHeap [[1, 3], [2]] ∧
      OrIterator.toList ((OrIterator.skipTo 2 ⟨[[1, 3], [2]]⟩).1)
        = (OrIterator.toList (⟨[[1, 3], [2]]⟩ : OrIterator)).dropWhile
            (fun x => x < 2)) ∧
    (DiffAligned ⟨[1, 3], [2]⟩ ∧
      DiffIterator.toList ((DiffIterator.skipTo 3 ⟨[1, 3], [2]⟩).1)
        = (DiffIterator.toList (⟨[1, 3], [2]⟩ : DiffIterator)).dropWhile
            (fun x => x < 3)) := by
  have hAndW : WFFam [[2, 3], [2]] := by
    intro c hc
    simp only [List.mem_cons, List.not_mem_nil, or_false] at hc
    rcases hc with rfl | rfl
    · exact ⟨by simp [List.chain'_cons], by decide⟩
    · exact ⟨by simp, by decide⟩
  have hAndP : AndPost [[2, 3], [2]] := Or.inl (by unfold alignedVals; decide)
  have hOrW : WFFam [[1, 3], [2]] := by
    intro c hc
    simp only [List.mem_cons, List.not_mem_nil, or_false] at hc
    rcases hc with rfl | rfl
    · exact ⟨by simp [List.chain'_cons], by decide⟩
    · exact ⟨by simp, by decide⟩
  have hHeap : IsMinHeap [[1, 3], [2]] := by
    intro i j hj hjl hqi
    rcases hj with rfl | rfl
    · have hi : i = 0 := by
        simp only [List.length_cons, List.length_nil] at hjl
        omega
      subst hi
      decide
    · simp only [List.length_cons, List.length_nil] at hjl
      omega
  have hDA : DiffAligned ⟨[1, 3], [2]⟩ := fun _ => by decide
  refine ⟨((skipTo_contract 2).1 (VectorIterator.mk0 [1, 2, 3])).1,
    ⟨hAndW, hAndP,
      ((skipTo_contract 3).2.1 ⟨[[2, 3], [2]]⟩ hAndW (by simp) hAndP).1⟩,
    ⟨hHeap, ((skipTo_contract 2).2.2.1 ⟨[[1, 3], [2]]⟩ hOrW hHeap).1⟩,
    ⟨hDA, ((skipTo_contract 3).2.2.2 ⟨[1, 3], [2]⟩
      (by simp [List.chain'_cons]) (by simp) hDA).1⟩⟩

end Qute
